import Mathlib

/-!
Verification of the InterfaceGenerator core: the scene-graph entity model
(`Instance.js`), the application-state controller (`AppState.js`) and the
2D branching history engine (`HistoryManager`).  The JavaScript source is
embedded shallowly: objects become structures, in-place mutation becomes
explicit state passing over the instance list (an in-place field write on
the first object matching an id becomes `updateFirst`), JS numbers that
hold pixel coordinates become `Int`, and the unbounded recursion of the
scene-graph traversal becomes structural recursion on an explicit fuel
that is always sufficient on forests (the only inputs on which the JS
recursion terminates at all).
-/

namespace IG

/-- `{x, y}` transform record of `Instance.js`. -/
structure Transform where
  x : Int
  y : Int
deriving DecidableEq, Repr

/-- `renderMode {horizontal, vertical}` record of `Instance.js`. -/
structure RenderMode where
  horizontal : String
  vertical : String
deriving DecidableEq, Repr

/-- `sizing {width, height}` record of `Instance.js`. -/
structure Sizing where
  width : Int
  height : Int
deriving DecidableEq, Repr

/-- The `Instance` data class of `Instance.js` (scene-graph version):
identity, local/world transforms, render mode, sizing, hierarchy links and
state flags. -/
structure Instance where
  id : String
  type_ : String
  localTransform : Transform
  worldTransform : Transform
  renderMode : RenderMode
  sizing : Sizing
  parentId : Option String
  children : List String
  anchored : Bool
  selected : Bool
  label : String
deriving DecidableEq, Repr

/-- The `Instance` constructor: `new Instance(id, type)` with all defaults
of `Instance.js` (`localTransform`/`worldTransform` zero, render mode
`relative`/`relative`, size 80×80, no parent, no children, not anchored,
not selected, label = id). -/
def Instance.build (id : String) (ty : String) : Instance :=
  { id := id
    type_ := ty
    localTransform := ⟨0, 0⟩
    worldTransform := ⟨0, 0⟩
    renderMode := ⟨"relative", "relative"⟩
    sizing := ⟨80, 80⟩
    parentId := none
    children := []
    anchored := false
    selected := false
    label := id }

/-- `AppState.getInstance(id)`: `this.instances.find(inst => inst.id === id)`. -/
def getInstance (insts : List Instance) (id : String) : Option Instance :=
  insts.find? (fun i => i.id = id)

/-- In-place mutation of the object returned by `getInstance`: rewrite the
first list entry whose id matches (JS `find` returns the first match and
the field write hits that object only). -/
def updateFirst (insts : List Instance) (id : String) (f : Instance → Instance) :
    List Instance :=
  match insts with
  | [] => []
  | i :: rest => if i.id = id then f i :: rest else i :: updateFirst rest id f

/-- JS truthiness of an id-valued expression (`if (parentId)`,
`if (instance.parentId)`): `null`/`undefined` and the empty string are
falsy, every other string is truthy. -/
def jsTruthyId (o : Option String) : Bool :=
  match o with
  | none => false
  | some s => !(s == "")

/-- `Instance.computeWorldTransform(parentWorldTransform)`: child ⇒
world = parent.world + local, root (null parent transform) ⇒ world = local. -/
def computeWorld (parentWorld : Option Transform) (localT : Transform) : Transform :=
  match parentWorld with
  | some pw => ⟨pw.x + localT.x, pw.y + localT.y⟩
  | none => localT

/-- The inner `updateRecursive(instance, parentWorldTransform)` of
`AppState.updateWorldTransforms`: compute this instance's world transform,
write it, then recurse into each child id that resolves in the live
collection, passing the just-computed world transform.  The JS recursion is
unbounded; here it runs on fuel, which the soundness theorems show is never
exhausted when the collection is a forest (on a cyclic `children` relation
the JS version does not terminate). -/
def updateRec : Nat → List Instance → String → Option Transform → List Instance
  | 0, s, _, _ => s
  | fuel + 1, s, id, pw =>
    match getInstance s id with
    | none => s
    | some inst =>
      let w := computeWorld pw inst.localTransform
      let s1 := updateFirst s id (fun i => { i with worldTransform := w })
      inst.children.foldl (fun acc cid => updateRec fuel acc cid (some w)) s1

/-- `AppState.updateWorldTransforms()`: roots are the instances whose
`parentId === null`; each root subtree is traversed depth-first from the
root with a null parent transform. -/
def updateWorldTransforms (insts : List Instance) : List Instance :=
  let roots := insts.filter (fun i => i.parentId = none)
  roots.foldl (fun acc r => updateRec insts.length acc r.id none) insts

/-- The ancestor chain of an entity: the entity itself followed by the
entities reached by repeatedly resolving `parentId`, ending at the first
entity whose parent id is absent or does not resolve.  `none` when the walk
does not stop within the given fuel (a cyclic parent relation). -/
def chainList (insts : List Instance) : Nat → Instance → Option (List Instance)
  | 0, _ => none
  | fuel + 1, e =>
    match e.parentId with
    | none => some [e]
    | some pid =>
      match getInstance insts pid with
      | none => some [e]
      | some p => (chainList insts fuel p).map (fun l => e :: l)

/-- Sum of the local transforms of a list of entities (the transform fold
along an ancestor chain). -/
def sumLocals (l : List Instance) : Transform :=
  l.foldr (fun i acc => ⟨i.localTransform.x + acc.x, i.localTransform.y + acc.y⟩) ⟨0, 0⟩

/-- Spec-side world transform of an entity: the sum of local transforms
along its path to a root, where a root is an entity with no parent or
whose parent id does not resolve (§4.2 of the design). -/
def chainWorld (insts : List Instance) (fuel : Nat) (e : Instance) : Option Transform :=
  (chainList insts fuel e).map sumLocals

/-- Ids of the proper ancestors of an entity, obtained by resolving parent
ids upward (stopping at a missing or dangling parent, or when fuel runs
out). -/
def ancestorIds (insts : List Instance) : Nat → Instance → List String
  | 0, _ => []
  | fuel + 1, e =>
    match e.parentId with
    | none => []
    | some pid =>
      match getInstance insts pid with
      | none => []
      | some p => p.id :: ancestorIds insts fuel p

/-- An id is its own ancestor: the cycle predicate the forest invariant of
§3 forbids.  Fuel `insts.length` detects every cycle because a cycle of
length k ≤ |insts| puts the entity among its own first k ancestors. -/
def isOwnAncestor (insts : List Instance) (e : Instance) : Prop :=
  e.id ∈ ancestorIds insts insts.length e

instance (insts : List Instance) (e : Instance) : Decidable (isOwnAncestor insts e) := by
  unfold isOwnAncestor; infer_instance

/-- The structural skeleton of an instance: the instance with its
world-transform cache (the only field the scene-graph traversal writes)
normalized away.  Two instances with equal skeletons agree on every field
the traversal reads. -/
def skel (i : Instance) : Instance :=
  { i with worldTransform := ⟨0, 0⟩ }

/-- Add an optional parent world transform to a transform (the base case
of the transform fold). -/
def addW (pw : Option Transform) (t : Transform) : Transform :=
  match pw with
  | none => t
  | some p => ⟨p.x + t.x, p.y + t.y⟩

/-- The fields an ancestor chain reads: id, parent link and local
transform.  Two collections that agree on these under lookup have
identical chains up to the remaining fields. -/
def chainKey (z : Instance) : String × Option String × Transform :=
  (z.id, z.parentId, z.localTransform)

/-- The legacy flat `positioning {x, y, modeH, modeV}` record of the old
`Instance.js` shape, accepted by `Instance.fromJSON` on read only. -/
structure LegacyPositioning where
  x : Int
  y : Int
  modeH : String
  modeV : String
deriving DecidableEq, Repr

/-- A serialized instance record, the plain object produced by
`Instance.toJSON` and consumed by `Instance.fromJSON`.  `positioning` is
present exactly on legacy-shaped records; `children` is optional because
`fromJSON` guards it with `data.children || []`. -/
structure InstanceData where
  id : String
  type_ : String
  positioning : Option LegacyPositioning
  localTransform : Transform
  renderMode : RenderMode
  sizing : Sizing
  parentId : Option String
  children : Option (List String)
  anchored : Bool
  selected : Bool
  label : String
deriving DecidableEq, Repr

/-- JS `a || b` on strings: the empty string is falsy. -/
def jsOrStr (a b : String) : String :=
  if a = "" then b else a

/-- JS `data.parentId || null`: an absent parent id or the empty string
collapses to `null`. -/
def jsOrNullId (o : Option String) : Option String :=
  match o with
  | none => none
  | some s => if s = "" then none else some s

/-- `Instance.toJSON()`: every field except the derived `worldTransform`
cache, each nested record spread into a fresh copy, always in the current
(non-legacy) shape. -/
def Instance.toJSON (e : Instance) : InstanceData :=
  { id := e.id
    type_ := e.type_
    positioning := none
    localTransform := e.localTransform
    renderMode := e.renderMode
    sizing := e.sizing
    parentId := e.parentId
    children := some e.children
    anchored := e.anchored
    selected := e.selected
    label := e.label }

/-- `Instance.fromJSON(data)`: build a fresh instance, take the legacy
branch when a `positioning` record is present (its `x`/`y` pass through
`|| 0`, the identity on integers; `modeH`/`modeV` pass through
`|| 'relative'`), otherwise copy the new-shape records; then copy sizing,
`parentId || null`, `children || []`, `anchored || false`,
`selected || false` and `label || data.id`. -/
def Instance.fromJSON (data : InstanceData) : Instance :=
  let base := Instance.build data.id data.type_
  let withPos :=
    match data.positioning with
    | some pos =>
      { base with
        localTransform := ⟨pos.x, pos.y⟩
        renderMode := ⟨jsOrStr pos.modeH "relative", jsOrStr pos.modeV "relative"⟩ }
    | none =>
      { base with
        localTransform := data.localTransform
        renderMode := data.renderMode }
  { withPos with
    sizing := data.sizing
    parentId := jsOrNullId data.parentId
    children := data.children.getD []
    anchored := data.anchored
    selected := data.selected
    label := jsOrStr data.label data.id }

/-- A captured application snapshot (`AppState.captureState`): serialized
instances, the spread of the selection set, and the id counter. -/
structure Snapshot where
  instances : List InstanceData
  selectedIds : List String
  objectCounter : Nat
deriving DecidableEq, Repr

/-- A `{action, state}` node of the history grid. -/
structure HNode where
  action : String
  state : Snapshot
deriving DecidableEq, Repr

/-- The `{branch, time}` cursor into the history grid. -/
structure Pointer where
  branch : Nat
  time : Nat
deriving DecidableEq, Repr

/-- An `archivedHistory` entry produced by `collapseHistory`. -/
structure Archive where
  timestamp : Int
  grid : List (List HNode)
  message : String
deriving DecidableEq, Repr

/-- The mutable fields of `HistoryManager`: the 2D grid of branches, the
pointer, and the archive of collapsed grids. -/
structure HM where
  grid : List (List HNode)
  pointer : Pointer
  archivedHistory : List Archive
deriving DecidableEq, Repr

/-- The node currently under the pointer
(`this.grid[this.pointer.branch][this.pointer.time]`). -/
def nodeAtPtr (hm : HM) : Option HNode :=
  (hm.grid.get? hm.pointer.branch).bind (fun b => b.get? hm.pointer.time)

/-- `HistoryManager.addState(action)` with the freshly captured snapshot
passed in as a value (the JS code obtains it from the capture callback).
Returns the new manager state and whether listeners were notified.
Snapshot comparison is `JSON.stringify` equality, which on these records
(fixed field sets, fixed emission order) coincides with structural
equality.  A pointer that does not index an existing node would throw in
JS; that unreachable case is modeled as a silent no-op and every theorem
assumes a valid pointer. -/
def addState (hm : HM) (action : String) (nextState : Snapshot) : HM × Bool :=
  match nodeAtPtr hm with
  | none => (hm, false)
  | some cur =>
    if cur.state = nextState then (hm, false)
    else
      let newNode : HNode := { action := action, state := nextState }
      let timeline := (hm.grid.get? hm.pointer.branch).getD []
      if hm.pointer.time = timeline.length - 1 then
        ({ hm with
            grid := hm.grid.set hm.pointer.branch (timeline ++ [newNode])
            pointer := { hm.pointer with time := hm.pointer.time + 1 } },
         true)
      else
        let newBranch := timeline.take (hm.pointer.time + 1) ++ [newNode]
        ({ hm with
            grid := hm.grid ++ [newBranch]
            pointer := { branch := hm.grid.length, time := newBranch.length - 1 } },
         true)

/-- `HistoryManager.collapseHistory()` with `Date.now()` passed in as a
value: archive the whole grid with a branch-count message, replace the
grid by the active branch's nodes up to and including the pointer, and
point at the end of that single branch. -/
def collapseHistory (hm : HM) (now : Int) : HM :=
  let activeTimeline := ((hm.grid.get? hm.pointer.branch).getD []).take (hm.pointer.time + 1)
  let archive : Archive :=
    { timestamp := now
      grid := hm.grid
      message := "Collapsed " ++ toString hm.grid.length ++ " branches." }
  { grid := [activeTimeline]
    pointer := { branch := 0, time := activeTimeline.length - 1 }
    archivedHistory := hm.archivedHistory ++ [archive] }

/-- The serialized `{grid, pointer, archivedHistory}` payload consumed by
`HistoryManager.fromJSON`; `archivedHistory` is optional because the code
guards it with `|| []`. -/
structure Payload where
  grid : List (List HNode)
  pointer : Pointer
  archivedHistory : Option (List Archive)
deriving DecidableEq, Repr

/-- The `AppState` fields the snapshot contract covers: the instance
collection, the selection set (a JS `Set`, modeled as its insertion-order
element list) and the id counter. -/
structure AppState where
  instances : List Instance
  selectedIds : List String
  objectCounter : Nat
deriving DecidableEq, Repr

/-- `new Set(ids)`: deduplicate keeping first occurrences in order. -/
def jsNewSet (ids : List String) : List String :=
  ids.foldl (fun acc id => if id ∈ acc then acc else acc ++ [id]) []

/-- `AppState.captureState()`: serialize every instance via `toJSON`,
spread the selection set, copy the counter. -/
def captureState (st : AppState) : Snapshot :=
  { instances := st.instances.map Instance.toJSON
    selectedIds := st.selectedIds
    objectCounter := st.objectCounter }

/-- `AppState.restoreState(state)`: rebuild every instance via `fromJSON`,
rebuild the selection set, restore the counter, then recompute all world
transforms. -/
def restoreState (_st : AppState) (s : Snapshot) : AppState :=
  let insts := s.instances.map Instance.fromJSON
  { instances := updateWorldTransforms insts
    selectedIds := jsNewSet s.selectedIds
    objectCounter := s.objectCounter }

/-- `AppState.createInstance(x, y, type)`: mint `obj-{++counter}`, place a
root instance at local = world = (x, y), and replace the selection with
it.  Returns the new state and the created instance. -/
def createInstance (st : AppState) (x y : Int) (ty : String) : AppState × Instance :=
  let counter := st.objectCounter + 1
  let inst0 := Instance.build ("obj-" ++ toString counter) ty
  let inst1 := { inst0 with localTransform := ⟨x, y⟩, label := inst0.id }
  let inst2 := { inst1 with worldTransform := inst1.localTransform }
  ({ instances := st.instances ++ [inst2]
     selectedIds := [inst2.id]
     objectCounter := counter },
   inst2)

/-- `AppState.deleteInstance(id)`: find the index, detach from the (truthy)
parent's children, recursively delete all children as read from the live
object after the detach, then splice at the originally recorded index and
drop the id from the selection.  The splice index is the one computed
before the recursive deletions, exactly as in the source.  The JS
recursion is unbounded; it runs here on fuel (sufficient on forests). -/
def deleteInstance : Nat → AppState → String → AppState × Bool
  | 0, st, _ => (st, false)
  | fuel + 1, st, id =>
    match st.instances.findIdx? (fun i => i.id = id) with
    | none => (st, false)
    | some index =>
      let inst := (st.instances.get? index).getD (Instance.build id "square")
      let insts1 :=
        if jsTruthyId inst.parentId then
          updateFirst st.instances (inst.parentId.getD "")
            (fun p => { p with children := p.children.filter (fun cid => cid ≠ id) })
        else st.instances
      let childIds := ((getInstance insts1 id).map (fun i => i.children)).getD inst.children
      let st2 := childIds.foldl
        (fun acc cid => (deleteInstance fuel acc cid).1)
        { st with instances := insts1 }
      ({ st2 with
          instances := st2.instances.eraseIdx index
          selectedIds := st2.selectedIds.filter (fun s => s ≠ id) },
       true)

/-- Detach step of `AppState.setParent`: when the child's old parent id
is truthy, remove the child id from that (first-matching) entity's
children. -/
def detachOld (insts : List Instance) (childId : String) (child : Instance) :
    List Instance :=
  if jsTruthyId child.parentId then
    updateFirst insts (child.parentId.getD "")
      (fun op => { op with children := op.children.filter (fun cid => cid ≠ childId) })
  else insts

/-- The successful body of `AppState.setParent`: detach from the old
(truthy) parent's children, store the new parent id verbatim, attach to
the resolved new parent's children when not already present, and convert
the local transform (the recorded world minus the new parent's cached
world, or the recorded world unchanged when becoming a root). -/
def setParentInsts (insts : List Instance) (childId : String) (parentId : Option String)
    (child : Instance) (parent? : Option Instance) : List Instance :=
  let insts2 := updateFirst (detachOld insts childId child) childId
    (fun c => { c with parentId := parentId })
  match parent? with
  | some parent =>
    updateFirst
      (updateFirst insts2 parent.id
        (fun p =>
          if childId ∈ p.children then p
          else { p with children := p.children ++ [childId] }))
      childId
      (fun c =>
        { c with localTransform :=
            ⟨child.worldTransform.x - parent.worldTransform.x,
             child.worldTransform.y - parent.worldTransform.y⟩ })
  | none =>
    updateFirst insts2 childId
      (fun c => { c with localTransform := child.worldTransform })

/-- `AppState.setParent(childId, parentId)`: resolve child and (truthy)
parent, fail when the child is missing or a truthy parent id does not
resolve, otherwise rewrite the instance collection (`setParentInsts`) and
recompute all world transforms. -/
def setParent (st : AppState) (childId : String) (parentId : Option String) :
    AppState × Bool :=
  let child? := getInstance st.instances childId
  let parent? :=
    if jsTruthyId parentId then getInstance st.instances (parentId.getD "") else none
  match child? with
  | none => (st, false)
  | some child =>
    if jsTruthyId parentId && parent?.isNone then (st, false)
    else
      ({ st with
          instances := updateWorldTransforms (setParentInsts st.instances childId parentId child parent?) },
       true)

/-- `AppState.updateInstancePosition(id, x, y)`: no-op when missing or
anchored; otherwise set the local transform to the world target minus the
(truthy, resolvable) parent's cached world transform, or to the target
itself for a root or unresolvable parent, then recompute all world
transforms. -/
def updateInstancePosition (st : AppState) (id : String) (x y : Int) :
    AppState × Bool :=
  match getInstance st.instances id with
  | none => (st, false)
  | some inst =>
    if inst.anchored then (st, false)
    else
      let insts1 :=
        if jsTruthyId inst.parentId then
          match getInstance st.instances (inst.parentId.getD "") with
          | some parent =>
            updateFirst st.instances id
              (fun i =>
                { i with localTransform :=
                    ⟨x - parent.worldTransform.x, y - parent.worldTransform.y⟩ })
          | none =>
            updateFirst st.instances id (fun i => { i with localTransform := ⟨x, y⟩ })
        else
          updateFirst st.instances id (fun i => { i with localTransform := ⟨x, y⟩ })
      ({ st with instances := updateWorldTransforms insts1 }, true)

/-- `AppState.updateInstanceMode(id, axis, mode)`: set the horizontal or
vertical render-mode hint; no transform recompute. -/
def updateInstanceMode (st : AppState) (id : String) (axis : String) (mode : String) :
    AppState × Bool :=
  match getInstance st.instances id with
  | none => (st, false)
  | some _ =>
    let insts1 :=
      if axis = "h" then
        updateFirst st.instances id (fun i => { i with renderMode := { i.renderMode with horizontal := mode } })
      else if axis = "v" then
        updateFirst st.instances id (fun i => { i with renderMode := { i.renderMode with vertical := mode } })
      else st.instances
    ({ st with instances := insts1 }, true)

/-- `AppState.toggleAnchor(id)`: `false` when the id does not resolve;
otherwise flip the flag and return the new value. -/
def toggleAnchor (st : AppState) (id : String) : AppState × Bool :=
  match getInstance st.instances id with
  | none => (st, false)
  | some inst =>
    ({ st with instances := updateFirst st.instances id (fun i => { i with anchored := !i.anchored }) },
     !inst.anchored)

/-- `AppState.selectInstance(id)`: clear then add. -/
def selectInstance (st : AppState) (id : String) : AppState :=
  { st with selectedIds := [id] }

/-- `AppState.toggleSelection(id)`. -/
def toggleSelection (st : AppState) (id : String) : AppState :=
  if id ∈ st.selectedIds then
    { st with selectedIds := st.selectedIds.filter (fun s => s ≠ id) }
  else
    { st with selectedIds := st.selectedIds ++ [id] }

/-- `AppState.addToSelection(id)`: JS `Set.add` keeps insertion order and
ignores duplicates. -/
def addToSelection (st : AppState) (id : String) : AppState :=
  if id ∈ st.selectedIds then st else { st with selectedIds := st.selectedIds ++ [id] }

/-- `AppState.clearSelection()`. -/
def clearSelection (st : AppState) : AppState :=
  { st with selectedIds := [] }

/-- `AppState.setSelection(ids)`: `new Set(ids)`. -/
def setSelection (st : AppState) (ids : List String) : AppState :=
  { st with selectedIds := jsNewSet ids }

/-- The combined application: the live state owned by `AppState` plus the
history manager that retains its snapshots. -/
structure World where
  app : AppState
  hist : HM
deriving DecidableEq, Repr

/-- `HistoryManager.fromJSON(data)` acting on the combined state.  The
source overwrites `grid`, `pointer` and `archivedHistory` first and only
then dereferences `grid[pointer.branch][pointer.time]`; on a structurally
invalid payload that dereference throws, which is modeled by the `error`
result, carrying the state as the exception leaves it: history fields
already replaced, live application state untouched because `restoreState`
was never reached. -/
def World.fromJSON (w : World) (p : Payload) : Except World World :=
  let hm1 : HM :=
    { grid := p.grid
      pointer := p.pointer
      archivedHistory := p.archivedHistory.getD [] }
  match (p.grid.get? p.pointer.branch).bind (fun b => b.get? p.pointer.time) with
  | none => .error { w with hist := hm1 }
  | some nd => .ok { app := restoreState w.app nd.state, hist := hm1 }

/-- The mutator surface of §6 that the history-disjointness claim ranges
over: move, reparent, delete, the selection operations, anchor toggling,
render-mode setting and creation. -/
inductive Mutation where
  | move (id : String) (x y : Int)
  | reparent (childId : String) (parentId : Option String)
  | del (id : String)
  | select (id : String)
  | toggleSel (id : String)
  | addSel (id : String)
  | clearSel
  | setSel (ids : List String)
  | anchor (id : String)
  | mode (id : String) (axis : String) (m : String)
  | create (x y : Int) (ty : String)

/-- Apply one mutator to the combined state.  The `AppState` mutators of
the source never touch the history manager: `saveToHistory`/`addState` is
a separate call the UI issues afterwards. -/
def applyMutation (w : World) (m : Mutation) : World :=
  match m with
  | .move id x y => { w with app := (updateInstancePosition w.app id x y).1 }
  | .reparent c p => { w with app := (setParent w.app c p).1 }
  | .del id => { w with app := (deleteInstance (w.app.instances.length + 1) w.app id).1 }
  | .select id => { w with app := selectInstance w.app id }
  | .toggleSel id => { w with app := toggleSelection w.app id }
  | .addSel id => { w with app := addToSelection w.app id }
  | .clearSel => { w with app := clearSelection w.app }
  | .setSel ids => { w with app := setSelection w.app ids }
  | .anchor id => { w with app := (toggleAnchor w.app id).1 }
  | .mode id a m => { w with app := (updateInstanceMode w.app id a m).1 }
  | .create x y ty => { w with app := (createInstance w.app x y ty).1 }

/-- Apply a sequence of mutators left to right. -/
def applyMutations (w : World) (ms : List Mutation) : World :=
  ms.foldl applyMutation w

/-- Decidable check: every resolvable entry of a `children` list points
back to its owner via `parentId`. -/
def wfForwardB (insts : List Instance) : Bool :=
  insts.all (fun p => p.children.all (fun cid =>
    match getInstance insts cid with
    | some c => decide (c.parentId = some p.id)
    | none => true))

/-- Decidable check: every entity whose `parentId` resolves is listed in
that parent's `children`. -/
def wfBackwardB (insts : List Instance) : Bool :=
  insts.all (fun c =>
    match c.parentId with
    | some pid =>
      match getInstance insts pid with
      | some p => decide (c.id ∈ p.children)
      | none => true
    | none => true)

/-- Decidable check: children lists hold no duplicates. -/
def wfChNodupB (insts : List Instance) : Bool :=
  insts.all (fun p => decide p.children.Nodup)

/-- Decidable check: an id appears in at most one entity's `children`. -/
def wfUniqueParentB (insts : List Instance) : Bool :=
  insts.all (fun p => p.children.all (fun cid =>
    insts.all (fun q => !(decide (cid ∈ q.children)) || decide (q = p))))

/-- Decidable check of the children/parent consistency half of the forest
invariant of §3: every resolvable entry of a `children` list points back
to its owner via `parentId`; every resolvable `parentId` owner lists the
child; children lists have no duplicates; and an id appears in at most one
entity's `children`. -/
def wfB (insts : List Instance) : Bool :=
  wfForwardB insts && wfBackwardB insts && wfChNodupB insts && wfUniqueParentB insts

/-- Decidable check that every entity's ancestor chain terminates within
`insts.length` steps: the acyclicity half of the forest invariant. -/
def rootedAllB (insts : List Instance) : Bool :=
  insts.all (fun e => (chainList insts insts.length e).isSome)

/-- Decidable check that every cached world transform is fresh: it equals
the transform fold along the entity's ancestor chain (§3 calls the cache
"always recomputable from the tree"). -/
def freshB (insts : List Instance) : Bool :=
  insts.all (fun e =>
    match chainList insts insts.length e with
    | some l => decide (e.worldTransform = sumLocals l)
    | none => true)

/-- Decidable check that ids are pairwise distinct. -/
def uniqueIdsB (insts : List Instance) : Bool :=
  decide (insts.map Instance.id).Nodup

/-- Decidable check that every present parent id resolves to a live
entity (no dangling parent references). -/
def parentsResolveB (insts : List Instance) : Bool :=
  insts.all (fun e =>
    match e.parentId with
    | some pid => (getInstance insts pid).isSome
    | none => true)

/-- Decidable check that no id is the empty string (§3 mints ids as
`obj-{counter}`, never empty; emptiness matters because the source tests
parent ids for JS truthiness). -/
def idsNonemptyB (insts : List Instance) : Bool :=
  insts.all (fun e => !(e.id == ""))

/-- Concrete input refuting C2 as stated: a one-entity forest whose parent
id does not resolve.  Its chain-fold world is its local transform, but the
traversal never visits it because the source takes only `parentId === null`
entities as roots, so its stale cached world transform survives. -/
def gC2 : Instance :=
  { Instance.build "g" "square" with
      localTransform := ⟨1, 0⟩
      worldTransform := ⟨5, 5⟩
      parentId := some "ghost" }

/-- Concrete input refuting C8 as stated: world transform not serialized,
empty label replaced by the id on load, empty-string parent id collapsed
to none by `|| null`. -/
def e0C8 : Instance :=
  { Instance.build "obj-1" "square" with
      worldTransform := ⟨7, 3⟩
      label := ""
      parentId := some "" }

/-- Round-trip witness entity with nonempty label and no parent. -/
def eWC8 : Instance :=
  { Instance.build "obj-2" "square" with
      localTransform := ⟨4, 5⟩
      worldTransform := ⟨9, 9⟩
      children := ["obj-3"]
      anchored := true
      label := "box" }

/-- Legacy-shaped record witness for the `positioning` branch of
`Instance.fromJSON`. -/
def dWC8 : InstanceData :=
  { id := "obj-9"
    type_ := "square"
    positioning := some ⟨11, 22, "absolute", "relative"⟩
    localTransform := ⟨0, 0⟩
    renderMode := ⟨"relative", "relative"⟩
    sizing := ⟨80, 80⟩
    parentId := none
    children := none
    anchored := false
    selected := false
    label := "obj-9" }

/-- Two-root forest used as a concrete witness state: `r1` and `r2` with
fresh world transforms. -/
def r1W : Instance :=
  { Instance.build "r1" "square" with localTransform := ⟨10, 10⟩, worldTransform := ⟨10, 10⟩ }

/-- Second root of the witness forest. -/
def r2W : Instance :=
  { Instance.build "r2" "square" with localTransform := ⟨3, 4⟩, worldTransform := ⟨3, 4⟩ }

/-- Witness application state holding the two-root forest. -/
def stW : AppState := ⟨[r1W, r2W], [], 2⟩

/-- Parent of the cycle-creating counterexample for C9. -/
def pC9 : Instance := { Instance.build "P" "square" with children := ["C"] }

/-- Child of the cycle-creating counterexample for C9. -/
def cC9 : Instance := { Instance.build "C" "square" with parentId := some "P" }

/-- Forest state on which `setParent("P", "C")` creates a cycle. -/
def stC9 : AppState := ⟨[pC9, cC9], [], 2⟩

/-- A two-entity parent/child forest with fresh world transforms, used as
a concrete witness for the propagation theorems: root `A` at (100, 50)
with child `B` at local (20, 30). -/
def aW : Instance :=
  { Instance.build "A" "square" with
      localTransform := ⟨100, 50⟩
      worldTransform := ⟨100, 50⟩
      children := ["B"] }

/-- Child of the witness forest: world (120, 80) = (100, 50) + (20, 30). -/
def bW : Instance :=
  { Instance.build "B" "square" with
      localTransform := ⟨20, 30⟩
      worldTransform := ⟨120, 80⟩
      parentId := some "A" }

/-- Empty snapshot used by the concrete history states. -/
def snapE : Snapshot := ⟨[], [], 0⟩

/-- Snapshot differing from `snapE` in the selection. -/
def snapA : Snapshot := ⟨[], ["a"], 0⟩

/-- Snapshot differing from both `snapE` and `snapA`. -/
def snapB : Snapshot := ⟨[], ["b"], 0⟩

/-- A three-node single-branch history with the pointer moved back to
time 1 (one undo), the §8 divergence scenario. -/
def hmMid : HM :=
  ⟨[[⟨"Initial State", snapE⟩, ⟨"a", snapA⟩, ⟨"b", snapB⟩]], ⟨0, 1⟩, []⟩

/-- A fresh single-node history. -/
def hmInit : HM := ⟨[[⟨"Initial State", snapE⟩]], ⟨0, 0⟩, []⟩

/-- Initial combined state: empty application, single-node history. -/
def w0W : World := ⟨⟨[], [], 0⟩, hmInit⟩

/-- Structurally invalid persisted payload: an empty grid that the pointer
cannot index. -/
def badPayload : Payload := ⟨[], ⟨0, 0⟩, some []⟩

/-! ### Theorems -/

theorem applyMutation_hist (w : World) (m : Mutation) : (applyMutation w m).hist = w.hist := by
  cases m <;> rfl

theorem applyMutations_hist (w : World) (ms : List Mutation) :
    (applyMutations w ms).hist = w.hist := by
  induction ms generalizing w with
  | nil => rfl
  | cons m ms ih =>
    show (applyMutations (applyMutation w m) ms).hist = w.hist
    rw [ih, applyMutation_hist]

/-- C1.  Snapshots stored in the history grid are disjoint copies: in this
state-passing embedding the claim reads extensionally as `no mutator of
the live entity collection, selection set or id counter ever rewrites a
stored history node`.  For every sequence of move / reparent / delete /
select / anchor / render-mode / create operations, the whole history
component is left untouched, and in particular every previously stored
`{action, state}` node is still present unchanged at its grid coordinate. -/
theorem claim_C1 (w : World) (ms : List Mutation) :
    (applyMutations w ms).hist = w.hist ∧
    ∀ b t nd, (w.hist.grid.get? b).bind (fun br => br.get? t) = some nd →
      (((applyMutations w ms).hist.grid.get? b).bind (fun br => br.get? t)) = some nd := by
  refine ⟨applyMutations_hist w ms, ?_⟩
  intro b t nd h
  rw [applyMutations_hist]
  exact h

theorem claim_C1_witness :
    (applyMutations w0W [.create 1 2 "square", .move "obj-1" 7 8, .anchor "obj-1"]).hist
        = w0W.hist ∧
    ((applyMutations w0W [.create 1 2 "square", .move "obj-1" 7 8, .anchor "obj-1"]).hist.grid.get?
        0).bind (fun br => br.get? 0) = some ⟨"Initial State", snapE⟩ := by
  refine ⟨(claim_C1 w0W _).1, (claim_C1 w0W _).2 0 0 _ ?_⟩
  rfl

/-- C10.  `toggleAnchor` returns the new flag when the id resolves and
`false` when it does not, so a `false` return is ambiguous between the
no-op failure case and a successful un-anchor; only `true` guarantees the
entity exists (and was just anchored from a previously un-anchored
state). -/
theorem claim_C10 (st : AppState) (id : String) :
    (toggleAnchor st id).2 =
        ((getInstance st.instances id).map (fun i => !i.anchored)).getD false ∧
    ((toggleAnchor st id).2 = true ↔
        ∃ i, getInstance st.instances id = some i ∧ i.anchored = false) := by
  cases h : getInstance st.instances id with
  | none =>
    refine ⟨by simp [toggleAnchor, h], ?_⟩
    simp [toggleAnchor, h]
  | some i =>
    have hval : (toggleAnchor st id).2 = !i.anchored := by simp [toggleAnchor, h]
    refine ⟨by simp [h, hval], ?_⟩
    rw [hval]
    constructor
    · intro hb
      exact ⟨i, rfl, by simpa using hb⟩
    · rintro ⟨j, hj, hja⟩
      cases hj
      simp [hja]

/-- C6.  `collapseHistory` appends one archive entry holding the whole
pre-collapse grid, a timestamp and the branch-count message, replaces the
grid with the single branch formed by the active branch's nodes up to and
including the pointer, and points at the last index of that branch. -/
theorem claim_C6 (hm : HM) (now : Int) (b t : Nat) (branch : List HNode)
    (hp : hm.pointer = ⟨b, t⟩) (hb : hm.grid.get? b = some branch)
    (ht : t < branch.length) :
    collapseHistory hm now =
      { grid := [branch.take (t + 1)]
        pointer := ⟨0, t⟩
        archivedHistory := hm.archivedHistory ++
          [⟨now, hm.grid, "Collapsed " ++ toString hm.grid.length ++ " branches."⟩] } ∧
    (branch.take (t + 1)).length = t + 1 := by
  have hlen : (branch.take (t + 1)).length = t + 1 := by
    rw [List.length_take]
    omega
  constructor
  · unfold collapseHistory
    rw [hp]
    simp only [hb, Option.getD_some, hlen, Nat.add_sub_cancel]
  · exact hlen

theorem claim_C6_witness :
    collapseHistory hmMid 999 =
      { grid := [[⟨"Initial State", snapE⟩, ⟨"a", snapA⟩]]
        pointer := ⟨0, 1⟩
        archivedHistory := [⟨999, hmMid.grid, "Collapsed 1 branches."⟩] } ∧
    (([⟨"Initial State", snapE⟩, ⟨"a", snapA⟩, ⟨"b", snapB⟩] :
        List HNode).take 2).length = 2 := by
  have h := claim_C6 hmMid 999 0 1
    [⟨"Initial State", snapE⟩, ⟨"a", snapA⟩, ⟨"b", snapB⟩] rfl rfl (by decide)
  simpa [hmMid] using h

/-- C7.  The claim says a structurally malformed persisted payload must be
rejected atomically, leaving grid, pointer, archive and live state
untouched.  The source instead installs the malformed grid, pointer and
archive first and only then hits the failing dereference, so the error
escapes with the history manager already clobbered (the live application
state alone survives).  Evaluated at the failing input: an empty grid. -/
theorem claim_C7 :
    World.fromJSON w0W badPayload =
      .error { app := w0W.app, hist := ⟨[], ⟨0, 0⟩, []⟩ } ∧
    w0W.hist.grid ≠ [] := by
  exact ⟨rfl, by decide⟩

/-- C2 counterexample.  A one-entity collection whose parent id does not
resolve satisfies every forest invariant (unique ids, consistent children,
terminating chains), and the claim's root rule makes its spec-side world
transform equal its local transform (1, 0); but `updateWorldTransforms`
takes only `parentId === null` entities as roots, never visits it, and
leaves its stale cached world transform (5, 5) in place. -/
theorem claim_C2_cex :
    uniqueIdsB [gC2] = true ∧ wfB [gC2] = true ∧ rootedAllB [gC2] = true ∧
    chainWorld [gC2] 1 gC2 = some ⟨1, 0⟩ ∧
    getInstance (updateWorldTransforms [gC2]) "g" = some gC2 ∧
    gC2.worldTransform ≠ (⟨1, 0⟩ : Transform) := by
  refine ⟨by decide, by decide, by decide, by decide, by decide, by decide⟩

/-- C8 counterexample.  Round-tripping an entity through
`toJSON`/`fromJSON` does not reproduce it: the world transform is not
serialized and comes back as the constructor default (0, 0) instead of
(7, 3); an empty label comes back as the id and an empty-string parent id
collapses to none under `||`. -/
theorem claim_C8_cex :
    Instance.fromJSON (Instance.toJSON e0C8) ≠ e0C8 ∧
    (Instance.fromJSON (Instance.toJSON e0C8)).worldTransform = ⟨0, 0⟩ ∧
    e0C8.worldTransform = ⟨7, 3⟩ ∧
    (Instance.fromJSON (Instance.toJSON e0C8)).label = "obj-1" ∧
    (Instance.fromJSON (Instance.toJSON e0C8)).parentId = none := by
  refine ⟨by decide, by decide, by decide, by decide, by decide⟩

/-- C8 amended.  `fromJSON ∘ toJSON` reproduces every field of the data
model except the derived `worldTransform` cache, which is reset to the
constructor default (0, 0) — provided the label is nonempty and the parent
id is not the empty string, both of which the `||` defaulting of `fromJSON`
would rewrite; and `fromJSON` accepts the legacy flat
`{x, y, modeH, modeV}` record, mapping it to the local transform and the
render mode (for nonempty mode strings, which `|| 'relative'` would
rewrite). -/
theorem claim_C8_amended :
    (∀ e : Instance, e.label ≠ "" → e.parentId ≠ some "" →
      Instance.fromJSON (Instance.toJSON e) = { e with worldTransform := ⟨0, 0⟩ }) ∧
    (∀ (d : InstanceData) (pos : LegacyPositioning), d.positioning = some pos →
      pos.modeH ≠ "" → pos.modeV ≠ "" →
      (Instance.fromJSON d).localTransform = ⟨pos.x, pos.y⟩ ∧
      (Instance.fromJSON d).renderMode = ⟨pos.modeH, pos.modeV⟩) := by
  constructor
  · intro e hl hp
    have hpid : jsOrNullId e.parentId = e.parentId := by
      cases h : e.parentId with
      | none => rfl
      | some s =>
        have hs : ¬ s = "" := by
          intro hs
          exact hp (by rw [h, hs])
        simp [jsOrNullId, hs]
    have hlab : jsOrStr e.label e.id = e.label := by simp [jsOrStr, hl]
    cases e with
    | mk id ty lt wt rm sz pid ch an se la =>
      simp_all [Instance.fromJSON, Instance.toJSON, Instance.build]
  · intro d pos hpos hH hV
    unfold Instance.fromJSON
    rw [hpos]
    simp [jsOrStr, hH, hV]

/-- C4.  With the pointer strictly inside its branch and a changed
snapshot, `addState` forks: the grid gains exactly one branch, formed by
the active branch's nodes from index 0 through the pointer inclusive
followed by the new `{action, state}` node; the pointer moves to the end
of that new branch; every existing branch — in particular the original
one — is left unchanged. -/
theorem claim_C4 (hm : HM) (action : String) (next : Snapshot) (b t : Nat)
    (branch : List HNode) (cur : HNode)
    (hp : hm.pointer = ⟨b, t⟩) (hb : hm.grid.get? b = some branch)
    (hcur : branch.get? t = some cur)
    (hmid : t + 1 < branch.length)
    (hne : cur.state ≠ next) :
    addState hm action next =
      ({ grid := hm.grid ++ [branch.take (t + 1) ++ [⟨action, next⟩]]
         pointer := ⟨hm.grid.length, t + 1⟩
         archivedHistory := hm.archivedHistory }, true) ∧
    (branch.take (t + 1) ++ [(⟨action, next⟩ : HNode)]).length = t + 2 ∧
    (addState hm action next).1.grid.length = hm.grid.length + 1 ∧
    (∀ i, i < hm.grid.length → (addState hm action next).1.grid.get? i = hm.grid.get? i) := by
  have hnode : nodeAtPtr hm = some cur := by
    unfold nodeAtPtr
    rw [hp]
    show (hm.grid.get? b).bind (fun br => br.get? t) = some cur
    rw [hb]
    exact hcur
  have htk : (branch.take (t + 1)).length = t + 1 := by
    rw [List.length_take]
    omega
  have key : addState hm action next =
      ({ grid := hm.grid ++ [branch.take (t + 1) ++ [⟨action, next⟩]]
         pointer := ⟨hm.grid.length, t + 1⟩
         archivedHistory := hm.archivedHistory }, true) := by
    simp only [addState, hnode]
    rw [if_neg hne, hp]
    simp only [hb, Option.getD_some]
    rw [if_neg (by omega : ¬ t = branch.length - 1)]
    simp [htk]
  refine ⟨key, by simp [htk], by rw [key]; simp, ?_⟩
  intro i hi
  rw [key]
  exact List.get?_append hi

theorem claim_C4_witness :
    addState hmMid "c" snapE =
      ({ grid := [[⟨"Initial State", snapE⟩, ⟨"a", snapA⟩, ⟨"b", snapB⟩],
                  [⟨"Initial State", snapE⟩, ⟨"a", snapA⟩, ⟨"c", snapE⟩]]
         pointer := ⟨1, 2⟩
         archivedHistory := [] }, true) ∧
    ((([⟨"Initial State", snapE⟩, ⟨"a", snapA⟩, ⟨"b", snapB⟩] : List HNode).take 2) ++
        [(⟨"c", snapE⟩ : HNode)]).length = 3 ∧
    (addState hmMid "c" snapE).1.grid.length = hmMid.grid.length + 1 ∧
    (∀ i, i < hmMid.grid.length →
      (addState hmMid "c" snapE).1.grid.get? i = hmMid.grid.get? i) := by
  have h := claim_C4 hmMid "c" snapE 0 1
    [⟨"Initial State", snapE⟩, ⟨"a", snapA⟩, ⟨"b", snapB⟩] ⟨"a", snapA⟩
    rfl rfl rfl (by decide) (by decide)
  simpa [hmMid] using h

theorem addState_nodeAtPtr (hm : HM) (a : String) (c : Snapshot) (cur : HNode)
    (h : nodeAtPtr hm = some cur) :
    ∃ nd, nodeAtPtr (addState hm a c).1 = some nd ∧ nd.state = c := by
  obtain ⟨branch, hb, hcur⟩ :
      ∃ br, hm.grid.get? hm.pointer.branch = some br ∧ br.get? hm.pointer.time = some cur := by
    unfold nodeAtPtr at h
    cases hgb : hm.grid.get? hm.pointer.branch with
    | none => rw [hgb] at h; simp at h
    | some br => rw [hgb] at h; exact ⟨br, rfl, h⟩
  have hblt : hm.pointer.branch < hm.grid.length := (List.get?_eq_some.mp hb).1
  have htlt : hm.pointer.time < branch.length := (List.get?_eq_some.mp hcur).1
  simp only [addState, h]
  by_cases he : cur.state = c
  · rw [if_pos he]
    exact ⟨cur, h, he⟩
  · rw [if_neg he]
    simp only [hb, Option.getD_some]
    by_cases ht : hm.pointer.time = branch.length - 1
    · rw [if_pos ht]
      refine ⟨⟨a, c⟩, ?_, rfl⟩
      show ((hm.grid.set hm.pointer.branch (branch ++ [⟨a, c⟩])).get? hm.pointer.branch).bind
          (fun br => br.get? (hm.pointer.time + 1)) = some ⟨a, c⟩
      rw [List.get?_set_eq_of_lt _ hblt]
      show (branch ++ [(⟨a, c⟩ : HNode)]).get? (hm.pointer.time + 1) = some ⟨a, c⟩
      have hlen : hm.pointer.time + 1 = branch.length := by omega
      rw [hlen]
      exact List.get?_concat_length branch _
    · rw [if_neg ht]
      refine ⟨⟨a, c⟩, ?_, rfl⟩
      show ((hm.grid ++
            [branch.take (hm.pointer.time + 1) ++ [(⟨a, c⟩ : HNode)]]).get? hm.grid.length).bind
          (fun br => br.get?
            ((branch.take (hm.pointer.time + 1) ++ [(⟨a, c⟩ : HNode)]).length - 1)) =
          some (⟨a, c⟩ : HNode)
      rw [List.get?_concat_length]
      show (branch.take (hm.pointer.time + 1) ++ [(⟨a, c⟩ : HNode)]).get?
          ((branch.take (hm.pointer.time + 1) ++ [(⟨a, c⟩ : HNode)]).length - 1) = some ⟨a, c⟩
      have htk : (branch.take (hm.pointer.time + 1)).length = hm.pointer.time + 1 := by
        rw [List.length_take]
        omega
      rw [List.length_append, htk]
      simp only [List.length_cons, List.length_nil]
      have h2 : hm.pointer.time + 1 + (0 + 1) - 1 = hm.pointer.time + 1 := by omega
      rw [h2]
      nth_rewrite 2 [← htk]
      exact List.get?_concat_length _ _

/-- C5.  When the freshly captured snapshot deep-equals the snapshot under
the pointer, `addState` is a complete no-op: state unchanged and no
listener notified.  Consequently, after any `addState` call the node under
the pointer carries the captured snapshot, so calling `addState` again
with no intervening mutation (the same capture) changes nothing and fires
nothing — two calls in a row append exactly one node. -/
theorem claim_C5 :
    (∀ (hm : HM) (action : String) (next : Snapshot) (cur : HNode),
      nodeAtPtr hm = some cur → cur.state = next →
      addState hm action next = (hm, false)) ∧
    (∀ (hm : HM) (a a' : String) (next : Snapshot) (cur : HNode),
      nodeAtPtr hm = some cur →
      addState (addState hm a next).1 a' next = ((addState hm a next).1, false)) := by
  have noop : ∀ (hm : HM) (action : String) (next : Snapshot) (cur : HNode),
      nodeAtPtr hm = some cur → cur.state = next →
      addState hm action next = (hm, false) := by
    intro hm action next cur h he
    simp only [addState, h]
    rw [if_pos he]
  refine ⟨noop, ?_⟩
  intro hm a a' next cur h
  obtain ⟨nd, hnd, hs⟩ := addState_nodeAtPtr hm a next cur h
  exact noop _ a' next nd hnd hs

theorem claim_C5_witness :
    addState hmInit "x" snapE = (hmInit, false) ∧
    addState (addState hmInit "x" snapA).1 "y" snapA = ((addState hmInit "x" snapA).1, false) := by
  exact ⟨claim_C5.1 hmInit "x" snapE ⟨"Initial State", snapE⟩ rfl rfl,
         claim_C5.2 hmInit "x" "y" snapA ⟨"Initial State", snapE⟩ rfl⟩

/-- C9 counterexample.  A two-entity forest (root `P` with child `C`)
satisfies every forest invariant, and `setParent("P", "C")` — reparenting
`P` under its own descendant — is accepted by the source (it returns
`true`) and produces a state in which both ids are their own ancestors:
the parent/children relation is no longer a forest. -/
theorem claim_C9_cex :
    uniqueIdsB stC9.instances = true ∧ wfB stC9.instances = true ∧
    rootedAllB stC9.instances = true ∧
    (setParent stC9 "P" (some "C")).2 = true ∧
    (∀ e ∈ (setParent stC9 "P" (some "C")).1.instances,
      isOwnAncestor (setParent stC9 "P" (some "C")).1.instances e) := by
  refine ⟨by decide, by decide, by decide, by decide, by decide⟩

theorem claim_C8_witness :
    Instance.fromJSON (Instance.toJSON eWC8) = { eWC8 with worldTransform := ⟨0, 0⟩ } ∧
    (Instance.fromJSON dWC8).localTransform = ⟨11, 22⟩ ∧
    (Instance.fromJSON dWC8).renderMode = ⟨"absolute", "relative"⟩ := by
  refine ⟨claim_C8_amended.1 eWC8 (by decide) (by decide), ?_, ?_⟩
  · exact (claim_C8_amended.2 dWC8 ⟨11, 22, "absolute", "relative"⟩ rfl (by decide) (by decide)).1
  · exact (claim_C8_amended.2 dWC8 ⟨11, 22, "absolute", "relative"⟩ rfl (by decide) (by decide)).2

/-! ### Lookup and skeleton lemmas -/

theorem getInstance_mem {insts : List Instance} {id : String} {e : Instance}
    (h : getInstance insts id = some e) : e ∈ insts :=
  List.mem_of_find?_eq_some h

theorem getInstance_id {insts : List Instance} {id : String} {e : Instance}
    (h : getInstance insts id = some e) : e.id = id := by
  have := List.find?_some h
  simpa using this

theorem getInstance_self {insts : List Instance} (hnd : (insts.map Instance.id).Nodup)
    {e : Instance} (he : e ∈ insts) : getInstance insts e.id = some e := by
  induction insts with
  | nil => cases he
  | cons a rest ih =>
    rcases List.mem_cons.mp he with rfl | hmem
    · simp [getInstance, List.find?_cons]
    · have hnd' : (rest.map Instance.id).Nodup := (List.nodup_cons.mp hnd).2
      have hane : ¬ a.id = e.id := by
        intro hid
        exact (List.nodup_cons.mp hnd).1 (hid ▸ List.mem_map_of_mem Instance.id hmem)
      have := ih hnd' hmem
      simpa [getInstance, List.find?_cons, hane] using this

theorem skel_fields {a b : Instance} (h : skel a = skel b) :
    a.id = b.id ∧ a.parentId = b.parentId ∧ a.children = b.children ∧
    a.localTransform = b.localTransform := by
  cases a
  cases b
  simp only [skel, Instance.mk.injEq] at h
  simp only [Instance.mk.injEq]
  tauto

theorem skel_set_world {a b : Instance} (h : skel a = skel b) (w : Transform) :
    { a with worldTransform := w } = { b with worldTransform := w } := by
  cases a
  cases b
  simp only [skel, Instance.mk.injEq] at h ⊢
  tauto

theorem getInstance_map_skel : ∀ {s s' : List Instance}, s.map skel = s'.map skel →
    ∀ q, (getInstance s q).map skel = (getInstance s' q).map skel := by
  intro s
  induction s with
  | nil =>
    intro s' h q
    cases s' with
    | nil => rfl
    | cons b bs => simp at h
  | cons a as ih =>
    intro s' h q
    cases s' with
    | nil => simp at h
    | cons b bs =>
      simp only [List.map_cons, List.cons.injEq] at h
      obtain ⟨hab, hrest⟩ := h
      have hid : a.id = b.id := (skel_fields hab).1
      by_cases hq : a.id = q
      · have hq' : b.id = q := hid ▸ hq
        simp [getInstance, List.find?_cons, hq, hq', hab]
      · have hq' : ¬ b.id = q := fun hh => hq (by rw [hid, hh])
        have := ih hrest q
        simpa [getInstance, List.find?_cons, hq, hq'] using this

theorem getInstance_skel_none {s s' : List Instance} (h : s.map skel = s'.map skel)
    {q : String} (hq : getInstance s q = none) : getInstance s' q = none := by
  have hmap := getInstance_map_skel h q
  rw [hq] at hmap
  cases hh : getInstance s' q with
  | none => rfl
  | some e => rw [hh] at hmap; simp at hmap

theorem getInstance_skel_some {s s' : List Instance} (h : s.map skel = s'.map skel)
    {q : String} {e : Instance} (hq : getInstance s q = some e) :
    ∃ e', getInstance s' q = some e' ∧ skel e' = skel e := by
  have hmap := getInstance_map_skel h q
  rw [hq] at hmap
  cases hh : getInstance s' q with
  | none => rw [hh] at hmap; simp at hmap
  | some e' =>
    rw [hh] at hmap
    simp only [Option.map_some', Option.some.injEq] at hmap
    exact ⟨e', rfl, hmap.symm⟩

theorem updateFirst_map_skel {s : List Instance} {id : String} (f : Instance → Instance)
    (hf : ∀ x, skel (f x) = skel x) : (updateFirst s id f).map skel = s.map skel := by
  induction s with
  | nil => rfl
  | cons a as ih =>
    by_cases h : a.id = id
    · simp [updateFirst, h, hf]
    · simp [updateFirst, h, ih]

theorem updateFirst_lookup_ne {s : List Instance} {id q : String} (f : Instance → Instance)
    (hf : ∀ x, (f x).id = x.id) (hne : q ≠ id) :
    getInstance (updateFirst s id f) q = getInstance s q := by
  induction s with
  | nil => rfl
  | cons a as ih =>
    have hiq : ¬ id = q := fun hh => hne hh.symm
    by_cases h : a.id = id
    · have haq : ¬ a.id = q := fun hh => hne (by rw [← hh, h])
      have hfq : ¬ (f a).id = q := by rw [hf]; exact haq
      simp [updateFirst, h, getInstance, List.find?_cons, hfq, haq, hiq]
    · by_cases h2 : a.id = q
      · simp [updateFirst, h, getInstance, List.find?_cons, h2, hne, hiq]
      · simpa [updateFirst, h, getInstance, List.find?_cons, h2] using ih

theorem updateFirst_lookup_eq {s : List Instance} {id : String} (f : Instance → Instance)
    {e : Instance} (hf : ∀ x, (f x).id = x.id) (h : getInstance s id = some e) :
    getInstance (updateFirst s id f) id = some (f e) := by
  induction s with
  | nil => simp [getInstance] at h
  | cons a as ih =>
    by_cases ha : a.id = id
    · have hea : a = e := by
        have : some a = some e := by simpa [getInstance, List.find?_cons, ha] using h
        simpa using this
      subst hea
      have hfa : (f a).id = id := by rw [hf]; exact ha
      simp [updateFirst, ha, getInstance, List.find?_cons, hfa]
    · have h' : getInstance as id = some e := by
        simpa [getInstance, List.find?_cons, ha] using h
      simpa [updateFirst, ha, getInstance, List.find?_cons] using ih h'

theorem foldl_inv {α β : Type} (P : α → Prop) {f : α → β → α}
    (h : ∀ a b, P a → P (f a b)) :
    ∀ (l : List β) (a : α), P a → P (l.foldl f a) := by
  intro l
  induction l with
  | nil => intro a pa; exact pa
  | cons x xs ih => intro a pa; exact ih (f a x) (h a x pa)

theorem updateRec_map_skel :
    ∀ (fuel : Nat) (s : List Instance) (id : String) (pw : Option Transform),
      (updateRec fuel s id pw).map skel = s.map skel := by
  intro fuel
  induction fuel with
  | zero => intro s id pw; rfl
  | succ fuel ih =>
    intro s id pw
    cases h : getInstance s id with
    | none => simp [updateRec, h]
    | some inst =>
      simp only [updateRec, h]
      have base : (updateFirst s id
          (fun i => { i with worldTransform := computeWorld pw inst.localTransform })).map skel
          = s.map skel := updateFirst_map_skel _ (fun x => rfl)
      refine foldl_inv (fun acc => List.map skel acc = s.map skel) ?_ inst.children _ base
      intro a b pa
      rw [ih a b (some (computeWorld pw inst.localTransform))]
      exact pa

/-! ### Ancestor-chain lemmas -/

theorem chainList_mono {insts : List Instance} :
    ∀ (f : Nat) {e : Instance} {l : List Instance} (f' : Nat),
      chainList insts f e = some l → f ≤ f' → chainList insts f' e = some l := by
  intro f
  induction f with
  | zero => intro e l f' h _; simp [chainList] at h
  | succ f ih =>
    intro e l f' h hle
    obtain ⟨f'', rfl⟩ : ∃ f'', f' = f'' + 1 := ⟨f' - 1, by omega⟩
    cases hp : e.parentId with
    | none =>
      simp only [chainList, hp] at h ⊢
      exact h
    | some pid =>
      cases hg : getInstance insts pid with
      | none =>
        simp only [chainList, hp, hg] at h ⊢
        exact h
      | some p =>
        simp only [chainList, hp, hg] at h ⊢
        cases hc : chainList insts f p with
        | none => rw [hc] at h; simp at h
        | some lp =>
          rw [hc] at h
          rw [ih f'' hc (by omega)]
          exact h

theorem chainList_head {insts : List Instance} {f : Nat} {e : Instance} {l : List Instance}
    (h : chainList insts f e = some l) : ∃ t, l = e :: t := by
  cases f with
  | zero => simp [chainList] at h
  | succ f =>
    cases hp : e.parentId with
    | none =>
      simp only [chainList, hp, Option.some.injEq] at h
      exact ⟨[], h.symm⟩
    | some pid =>
      cases hg : getInstance insts pid with
      | none =>
        simp only [chainList, hp, hg, Option.some.injEq] at h
        exact ⟨[], h.symm⟩
      | some p =>
        simp only [chainList, hp, hg] at h
        cases hc : chainList insts f p with
        | none => rw [hc] at h; simp at h
        | some lp =>
          rw [hc] at h
          simp only [Option.map_some', Option.some.injEq] at h
          exact ⟨lp, h.symm⟩

theorem chainList_suffix {insts : List Instance} :
    ∀ (f : Nat) {e : Instance} {l : List Instance}, chainList insts f e = some l →
      ∀ (k : Nat) {x : Instance}, l.get? k = some x →
        chainList insts (f - k) x = some (l.drop k) := by
  intro f
  induction f with
  | zero => intro e l h; simp [chainList] at h
  | succ f ih =>
    intro e l h k x hget
    cases k with
    | zero =>
      obtain ⟨t, rfl⟩ := chainList_head h
      simp only [List.get?_cons_zero, Option.some.injEq] at hget
      subst hget
      simpa using h
    | succ k =>
      obtain ⟨t, rfl⟩ := chainList_head h
      simp only [List.get?_cons_succ] at hget
      cases hp : e.parentId with
      | none =>
        simp only [chainList, hp, Option.some.injEq] at h
        have ht : t = [] := by simpa using h.symm
        rw [ht] at hget
        simp at hget
      | some pid =>
        cases hg : getInstance insts pid with
        | none =>
          simp only [chainList, hp, hg, Option.some.injEq] at h
          have ht : t = [] := by simpa using h.symm
          rw [ht] at hget
          simp at hget
        | some p =>
          simp only [chainList, hp, hg] at h
          cases hc : chainList insts f p with
          | none => rw [hc] at h; simp at h
          | some lp =>
            rw [hc] at h
            simp only [Option.map_some', Option.some.injEq, List.cons.injEq, true_and] at h
            have hlt : lp = t := h
            have hres := ih hc k (by rw [hlt]; exact hget)
            have harith : f + 1 - (k + 1) = f - k := by omega
            rw [harith]
            simpa [hlt] using hres

theorem chainList_nodup {insts : List Instance} :
    ∀ (f : Nat) {e : Instance} {l : List Instance},
      chainList insts f e = some l → l.Nodup := by
  intro f
  induction f with
  | zero => intro e l h; simp [chainList] at h
  | succ f ih =>
    intro e l h
    cases hp : e.parentId with
    | none =>
      simp only [chainList, hp, Option.some.injEq] at h
      rw [← h]
      simp
    | some pid =>
      cases hg : getInstance insts pid with
      | none =>
        simp only [chainList, hp, hg, Option.some.injEq] at h
        rw [← h]
        simp
      | some p =>
        simp only [chainList, hp, hg] at h
        cases hc : chainList insts f p with
        | none => rw [hc] at h; simp at h
        | some lp =>
          rw [hc] at h
          simp only [Option.map_some', Option.some.injEq] at h
          have hlp := ih hc
          have hen : e ∉ lp := by
            intro hmem
            obtain ⟨k, hk⟩ := List.get?_of_mem hmem
            have h1 : chainList insts (f - k) e = some (lp.drop k) := chainList_suffix f hc k hk
            have h2 : chainList insts (f + 1) e = some (e :: lp) := by
              simp [chainList, hp, hg, hc]
            have h3 : chainList insts (f + 1) e = some (lp.drop k) :=
              chainList_mono (f - k) (f + 1) h1 (by omega)
            rw [h2] at h3
            have hlen : (e :: lp).length = (lp.drop k).length := by
              rw [show e :: lp = lp.drop k by simpa using h3]
            have hklen : k < lp.length := (List.get?_eq_some.mp hk).1
            simp only [List.length_cons, List.length_drop] at hlen
            omega
          rw [← h]
          exact List.nodup_cons.mpr ⟨hen, hlp⟩

theorem chainList_mem {insts : List Instance} :
    ∀ (f : Nat) {e : Instance} {l : List Instance}, chainList insts f e = some l →
      ∀ x ∈ l, x = e ∨ x ∈ insts := by
  intro f
  induction f with
  | zero => intro e l h; simp [chainList] at h
  | succ f ih =>
    intro e l h x hx
    cases hp : e.parentId with
    | none =>
      simp only [chainList, hp, Option.some.injEq] at h
      rw [← h] at hx
      simp at hx
      exact Or.inl hx
    | some pid =>
      cases hg : getInstance insts pid with
      | none =>
        simp only [chainList, hp, hg, Option.some.injEq] at h
        rw [← h] at hx
        simp at hx
        exact Or.inl hx
      | some p =>
        simp only [chainList, hp, hg] at h
        cases hc : chainList insts f p with
        | none => rw [hc] at h; simp at h
        | some lp =>
          rw [hc] at h
          simp only [Option.map_some', Option.some.injEq] at h
          rw [← h] at hx
          rcases List.mem_cons.mp hx with rfl | hmem
          · exact Or.inl rfl
          · rcases ih hc x hmem with rfl | hin
            · exact Or.inr (getInstance_mem hg)
            · exact Or.inr hin

theorem chainList_subset {insts : List Instance} {f : Nat} {e : Instance}
    {l : List Instance} (he : e ∈ insts) (h : chainList insts f e = some l) :
    l ⊆ insts := by
  intro x hx
  rcases chainList_mem f h x hx with rfl | hin
  · exact he
  · exact hin

theorem chainList_length_le {insts : List Instance} {f : Nat} {e : Instance}
    {l : List Instance} (he : e ∈ insts) (h : chainList insts f e = some l) :
    l.length ≤ insts.length :=
  (List.subperm_of_subset (chainList_nodup f h) (chainList_subset he h)).length_le

theorem chainList_minfuel {insts : List Instance} :
    ∀ (f : Nat) {e : Instance} {l : List Instance},
      chainList insts f e = some l → chainList insts l.length e = some l := by
  intro f
  induction f with
  | zero => intro e l h; simp [chainList] at h
  | succ f ih =>
    intro e l h
    cases hp : e.parentId with
    | none =>
      simp only [chainList, hp, Option.some.injEq] at h
      rw [← h]
      simp [chainList, hp]
    | some pid =>
      cases hg : getInstance insts pid with
      | none =>
        simp only [chainList, hp, hg, Option.some.injEq] at h
        rw [← h]
        simp [chainList, hp, hg]
      | some p =>
        simp only [chainList, hp, hg] at h
        cases hc : chainList insts f p with
        | none => rw [hc] at h; simp at h
        | some lp =>
          rw [hc] at h
          simp only [Option.map_some', Option.some.injEq] at h
          rw [← h]
          simp [chainList, hp, hg, ih hc]

theorem chainList_full {insts : List Instance} {f : Nat} {e : Instance}
    {l : List Instance} (he : e ∈ insts) (h : chainList insts f e = some l) :
    chainList insts insts.length e = some l :=
  chainList_mono l.length insts.length (chainList_minfuel f h) (chainList_length_le he h)

theorem chainList_uniq {insts : List Instance} {f f' : Nat} {e : Instance}
    {l l' : List Instance} (h1 : chainList insts f e = some l)
    (h2 : chainList insts f' e = some l') : l = l' := by
  have a1 := chainList_mono f (f + f') h1 (by omega)
  have a2 := chainList_mono f' (f + f') h2 (by omega)
  rw [a1] at a2
  simpa using a2

theorem chainList_step {insts : List Instance} {f k : Nat} {e x y : Instance}
    {l : List Instance} (h : chainList insts f e = some l)
    (hx : l.get? k = some x) (hy : l.get? (k + 1) = some y) :
    ∃ pid, x.parentId = some pid ∧ getInstance insts pid = some y := by
  have hsuf := chainList_suffix f h k hx
  have hfk : f - k ≠ 0 := by
    intro h0
    rw [h0] at hsuf
    simp [chainList] at hsuf
  obtain ⟨m, hm⟩ : ∃ m, f - k = m + 1 := ⟨f - k - 1, by omega⟩
  rw [hm] at hsuf
  have hd1 : (l.drop k).get? 1 = some y := by
    rw [List.get?_drop]
    exact hy
  cases hp : x.parentId with
  | none =>
    simp only [chainList, hp, Option.some.injEq] at hsuf
    rw [← hsuf] at hd1
    simp at hd1
  | some pid =>
    cases hg : getInstance insts pid with
    | none =>
      simp only [chainList, hp, hg, Option.some.injEq] at hsuf
      rw [← hsuf] at hd1
      simp at hd1
    | some p =>
      simp only [chainList, hp, hg] at hsuf
      cases hc : chainList insts m p with
      | none => rw [hc] at hsuf; simp at hsuf
      | some lp =>
        rw [hc] at hsuf
        simp only [Option.map_some', Option.some.injEq] at hsuf
        obtain ⟨t, rfl⟩ := chainList_head hc
        rw [← hsuf] at hd1
        simp only [List.get?_cons_succ, List.get?_cons_zero, Option.some.injEq] at hd1
        exact ⟨pid, rfl, by rw [hg, hd1]⟩

theorem chainList_last {insts : List Instance} :
    ∀ (f : Nat) {e r : Instance} {l : List Instance},
      chainList insts f e = some l → l.getLast? = some r →
      r.parentId = none ∨ ∃ pid, r.parentId = some pid ∧ getInstance insts pid = none := by
  intro f
  induction f with
  | zero => intro e r l h; simp [chainList] at h
  | succ f ih =>
    intro e r l h hlast
    cases hp : e.parentId with
    | none =>
      simp only [chainList, hp, Option.some.injEq] at h
      rw [← h] at hlast
      simp only [List.getLast?_singleton, Option.some.injEq] at hlast
      exact Or.inl (hlast ▸ hp)
    | some pid =>
      cases hg : getInstance insts pid with
      | none =>
        simp only [chainList, hp, hg, Option.some.injEq] at h
        rw [← h] at hlast
        simp only [List.getLast?_singleton, Option.some.injEq] at hlast
        exact Or.inr ⟨pid, hlast ▸ hp, hg⟩
      | some p =>
        simp only [chainList, hp, hg] at h
        cases hc : chainList insts f p with
        | none => rw [hc] at h; simp at h
        | some lp =>
          rw [hc] at h
          simp only [Option.map_some', Option.some.injEq] at h
          obtain ⟨t, rfl⟩ := chainList_head hc
          rw [← h] at hlast
          rw [List.getLast?_cons_cons] at hlast
          exact ih hc hlast

theorem chainList_child {insts : List Instance} {c p : Instance} {pid : String}
    {lp : List Instance} {f : Nat} (hc : c ∈ insts) (hpar : c.parentId = some pid)
    (hg : getInstance insts pid = some p) (hp : chainList insts f p = some lp) :
    chainList insts insts.length c = some (c :: lp) := by
  have h1 : chainList insts lp.length p = some lp := chainList_minfuel f hp
  have h2 : chainList insts (lp.length + 1) c = some (c :: lp) := by
    simp [chainList, hpar, hg, h1]
  exact chainList_full hc h2

theorem ancestorIds_eq_chain {insts : List Instance} :
    ∀ (f : Nat) {e : Instance} {l : List Instance}, chainList insts f e = some l →
      ancestorIds insts f e = (l.drop 1).map Instance.id := by
  intro f
  induction f with
  | zero => intro e l h; simp [chainList] at h
  | succ f ih =>
    intro e l h
    cases hp : e.parentId with
    | none =>
      simp only [chainList, hp, Option.some.injEq] at h
      rw [← h]
      simp [ancestorIds, hp]
    | some pid =>
      cases hg : getInstance insts pid with
      | none =>
        simp only [chainList, hp, hg, Option.some.injEq] at h
        rw [← h]
        simp [ancestorIds, hp, hg]
      | some p =>
        simp only [chainList, hp, hg] at h
        cases hc : chainList insts f p with
        | none => rw [hc] at h; simp at h
        | some lp =>
          rw [hc] at h
          simp only [Option.map_some', Option.some.injEq] at h
          obtain ⟨t, rfl⟩ := chainList_head hc
          rw [← h]
          simp only [ancestorIds, hp, hg, ih hc]
          simp

theorem not_own_ancestor_of_rooted {insts : List Instance}
    (hnd : (insts.map Instance.id).Nodup) {e : Instance} {l : List Instance}
    (he : e ∈ insts) (h : chainList insts insts.length e = some l) :
    ¬ isOwnAncestor insts e := by
  intro hown
  unfold isOwnAncestor at hown
  rw [ancestorIds_eq_chain insts.length h] at hown
  obtain ⟨x, hx, hxid⟩ := List.mem_map.mp hown
  have hxl : x ∈ l := List.drop_subset 1 l hx
  have hxe : x = e := by
    rcases chainList_mem insts.length h x hxl with rfl | hxmem
    · rfl
    · have g1 := getInstance_self hnd hxmem
      have g2 := getInstance_self hnd he
      rw [hxid, g2] at g1
      have hex : e = x := by simpa using g1
      exact hex.symm
  subst hxe
  obtain ⟨t, rfl⟩ := chainList_head h
  have hnodup := chainList_nodup insts.length h
  have : x ∉ t := (List.nodup_cons.mp hnodup).1
  exact this (by simpa using hx)

/-! ### Extraction of the decidable invariant checkers -/

theorem uniqueIdsB_spec {insts : List Instance} (h : uniqueIdsB insts = true) :
    (insts.map Instance.id).Nodup := by
  simpa [uniqueIdsB] using h

theorem wf_forward {insts : List Instance} (h : wfB insts = true) :
    ∀ {p : Instance}, p ∈ insts → ∀ {cid : String}, cid ∈ p.children →
      ∀ {c : Instance}, getInstance insts cid = some c → c.parentId = some p.id := by
  intro p hp cid hcid c hc
  have h1 : wfForwardB insts = true := by
    simp only [wfB, Bool.and_eq_true] at h
    exact h.1.1.1
  simp only [wfForwardB, List.all_eq_true] at h1
  have := h1 p hp cid hcid
  rw [hc] at this
  simpa using this

theorem wf_backward {insts : List Instance} (h : wfB insts = true) :
    ∀ {c : Instance}, c ∈ insts → ∀ {pid : String}, c.parentId = some pid →
      ∀ {p : Instance}, getInstance insts pid = some p → c.id ∈ p.children := by
  intro c hcm pid hpid p hp
  have h1 : wfBackwardB insts = true := by
    simp only [wfB, Bool.and_eq_true] at h
    exact h.1.1.2
  simp only [wfBackwardB, List.all_eq_true] at h1
  have h2 := h1 c hcm
  rw [hpid] at h2
  have h3 : (match getInstance insts pid with
      | some p => decide (c.id ∈ p.children)
      | none => true) = true := h2
  rw [hp] at h3
  simpa using h3

theorem wf_chNodup {insts : List Instance} (h : wfB insts = true) :
    ∀ {p : Instance}, p ∈ insts → p.children.Nodup := by
  intro p hp
  have h1 : wfChNodupB insts = true := by
    simp only [wfB, Bool.and_eq_true] at h
    exact h.1.2
  simp only [wfChNodupB, List.all_eq_true] at h1
  have := h1 p hp
  simpa using this

theorem wf_uniqueParent {insts : List Instance} (h : wfB insts = true) :
    ∀ {p : Instance}, p ∈ insts → ∀ {q : Instance}, q ∈ insts →
      ∀ {cid : String}, cid ∈ p.children → cid ∈ q.children → q = p := by
  intro p hp q hq cid hcp hcq
  have h1 : wfUniqueParentB insts = true := by
    simp only [wfB, Bool.and_eq_true] at h
    exact h.2
  simp only [wfUniqueParentB, List.all_eq_true] at h1
  have := h1 p hp cid hcp q hq
  simp only [Bool.or_eq_true, Bool.not_eq_true', decide_eq_false_iff_not,
    decide_eq_true_eq] at this
  rcases this with hnot | heq
  · exact absurd hcq hnot
  · exact heq

theorem rootedAllB_spec {insts : List Instance} (h : rootedAllB insts = true) :
    ∀ e ∈ insts, ∃ l, chainList insts insts.length e = some l := by
  simp only [rootedAllB, List.all_eq_true] at h
  intro e he
  have := h e he
  cases hc : chainList insts insts.length e with
  | none => rw [hc] at this; simp at this
  | some l => exact ⟨l, rfl⟩

theorem freshB_spec {insts : List Instance} (h : freshB insts = true) :
    ∀ e ∈ insts, ∀ l, chainList insts insts.length e = some l →
      e.worldTransform = sumLocals l := by
  simp only [freshB, List.all_eq_true] at h
  intro e he l hl
  have := h e he
  rw [hl] at this
  simpa using this

theorem parentsResolveB_spec {insts : List Instance} (h : parentsResolveB insts = true) :
    ∀ e ∈ insts, ∀ pid, e.parentId = some pid → ∃ p, getInstance insts pid = some p := by
  simp only [parentsResolveB, List.all_eq_true] at h
  intro e he pid hpid
  have h2 := h e he
  rw [hpid] at h2
  have h3 : (getInstance insts pid).isSome = true := h2
  cases hg : getInstance insts pid with
  | none => rw [hg] at h3; simp at h3
  | some p => exact ⟨p, rfl⟩

theorem idsNonemptyB_spec {insts : List Instance} (h : idsNonemptyB insts = true) :
    ∀ e ∈ insts, e.id ≠ "" := by
  simp only [idsNonemptyB, List.all_eq_true] at h
  intro e he
  have := h e he
  simpa using this

/-! ### Arithmetic helpers for the transform fold -/

theorem sumLocals_cons (x : Instance) (l : List Instance) :
    sumLocals (x :: l) =
      ⟨x.localTransform.x + (sumLocals l).x, x.localTransform.y + (sumLocals l).y⟩ := rfl

theorem sumLocals_append (a b : List Instance) :
    sumLocals (a ++ b) =
      ⟨(sumLocals a).x + (sumLocals b).x, (sumLocals a).y + (sumLocals b).y⟩ := by
  induction a with
  | nil => simp [sumLocals]
  | cons x xs ih =>
    simp only [List.cons_append, sumLocals_cons, ih]
    simp [Transform.mk.injEq]
    omega

theorem sumLocals_take_succ {l : List Instance} {k : Nat} {x : Instance}
    (h : l.get? k = some x) :
    sumLocals (l.take (k + 1)) =
      ⟨(sumLocals (l.take k)).x + x.localTransform.x,
       (sumLocals (l.take k)).y + x.localTransform.y⟩ := by
  have h' : l[k]? = some x := by simpa using h
  rw [List.take_succ, h']
  rw [sumLocals_append]
  simp [sumLocals, Transform.mk.injEq]

theorem computeWorld_eq_addW (pw : Option Transform) (lt : Transform) :
    computeWorld pw lt = addW pw lt := by
  cases pw <;> rfl

theorem addW_sum_single (pw : Option Transform) (i : Instance) :
    addW pw (sumLocals [i]) = computeWorld pw i.localTransform := by
  cases pw <;> simp [addW, sumLocals, computeWorld]

theorem addW_assoc (pw : Option Transform) (L S : Transform) :
    addW (some (addW pw L)) S = addW pw ⟨S.x + L.x, S.y + L.y⟩ := by
  cases pw <;> simp [addW, Transform.mk.injEq] <;> omega

/-! ### Position helpers for chains -/

theorem drop_cons_eq_len {α : Type} {l t : List α} {k k2 : Nat} {x y : α}
    (h1 : l.drop k = x :: t) (h2 : l.drop k2 = y :: t) : k = k2 ∧ x = y := by
  have hk : k < l.length := by
    by_contra hge
    rw [List.drop_eq_nil_of_le (by omega)] at h1
    simp at h1
  have hk2 : k2 < l.length := by
    by_contra hge
    rw [List.drop_eq_nil_of_le (by omega)] at h2
    simp at h2
  have e1 : l.length - k = t.length + 1 := by
    rw [← List.length_drop k l, h1]
    simp
  have e2 : l.length - k2 = t.length + 1 := by
    rw [← List.length_drop k2 l, h2]
    simp
  have hkk : k = k2 := by omega
  subst hkk
  rw [h1] at h2
  exact ⟨rfl, by simpa using h2⟩

theorem under_drop {insts : List Instance} {e x : Instance} {l lx : List Instance} {k : Nat}
    (hle : chainList insts insts.length e = some l) (hk : l.get? k = some x)
    (hlx : chainList insts insts.length x = some lx) : l.drop k = lx :=
  chainList_uniq
    (chainList_mono _ insts.length (chainList_suffix insts.length hle k hk) (by omega)) hlx

theorem get_after_drop {α : Type} {l t : List α} {k : Nat} {x y : α}
    (h : l.drop k = x :: y :: t) : l.get? (k + 1) = some y := by
  have h1 : (l.drop k).get? 1 = some y := by rw [h]; rfl
  rw [List.get?_drop] at h1
  exact h1

/-! ### Correctness of the depth-first traversal -/

/-- Main lemma about `updateRecursive`: on a consistent forest, a call on
node `i` with parent-context transform `pw` (a) leaves every entity whose
ancestor chain does not pass through `i` untouched, and (b) writes into
every entity `e` whose chain contains `i` at position `k` the world
transform `pw` plus the local-transform fold along the chain segment from
`e` up to `i`.  Fuel must exceed every such position `k`. -/
theorem updateRec_spec {insts : List Instance}
    (hnd : (insts.map Instance.id).Nodup) (hwf : wfB insts = true) (fuel : Nat) :
    ∀ (s : List Instance) (id : String) (i : Instance) (pw : Option Transform),
      s.map skel = insts.map skel →
      getInstance insts id = some i →
      (∃ li, chainList insts insts.length i = some li) →
      (∀ (e : Instance) (l : List Instance) (k : Nat), getInstance insts e.id = some e →
        chainList insts insts.length e = some l → l.get? k = some i → k < fuel) →
      (∀ q : String,
        (¬ ∃ (e : Instance) (l : List Instance) (k : Nat), getInstance insts q = some e ∧
          chainList insts insts.length e = some l ∧ l.get? k = some i) →
        getInstance (updateRec fuel s id pw) q = getInstance s q) ∧
      (∀ (e : Instance) (l : List Instance) (k : Nat), getInstance insts e.id = some e →
        chainList insts insts.length e = some l → l.get? k = some i →
        getInstance (updateRec fuel s id pw) e.id =
          some { e with worldTransform := addW pw (sumLocals (l.take (k + 1))) }) := by
  induction fuel with
  | zero =>
    intro s id i pw hskel hij hterm hfuel
    exfalso
    have hid_eq : i.id = id := getInstance_id hij
    have hii : getInstance insts i.id = some i := by rw [hid_eq]; exact hij
    obtain ⟨li, hli⟩ := hterm
    obtain ⟨ti, hti⟩ := chainList_head hli
    have h0 : li.get? 0 = some i := by rw [hti]; rfl
    exact absurd (hfuel i li 0 hii hli h0) (by omega)
  | succ fuel ih =>
    intro s id i pw hskel hij hterm hfuel
    have hid_eq : i.id = id := getInstance_id hij
    have hii : getInstance insts i.id = some i := by rw [hid_eq]; exact hij
    have himem : i ∈ insts := getInstance_mem hij
    obtain ⟨li, hli⟩ := hterm
    obtain ⟨ti, hti⟩ := chainList_head hli
    obtain ⟨i_s, his, hskel_i⟩ := getInstance_skel_some hskel.symm hij
    have hfields := skel_fields hskel_i
    have hch : i_s.children = i.children := hfields.2.2.1
    have hloc : i_s.localTransform = i.localTransform := hfields.2.2.2
    have heq : updateRec (fuel + 1) s id pw =
        i_s.children.foldl
          (fun acc cid => updateRec fuel acc cid (some (computeWorld pw i_s.localTransform)))
          (updateFirst s id
            (fun j => { j with worldTransform := computeWorld pw i_s.localTransform })) := by
      simp only [updateRec, his]
    have hs1skel : (updateFirst s id
        (fun j => { j with worldTransform := computeWorld pw i_s.localTransform })).map skel
        = insts.map skel := by
      rw [updateFirst_map_skel
        (fun j => { j with worldTransform := computeWorld pw i_s.localTransform })
        (fun x => rfl)]
      exact hskel
    -- a child of i can never occur in i's own chain
    have hnochild : ∀ (cI : Instance) (k2 : Nat), getInstance insts cI.id = some cI →
        cI.parentId = some i.id → li.get? k2 = some cI → False := by
      intro cI k2 hcIl hcIpar hk2
      have hchain_cI : chainList insts insts.length cI = some (cI :: li) :=
        chainList_child (getInstance_mem hcIl) hcIpar hii hli
      have hdrop : li.drop k2 = cI :: li := under_drop hli hk2 hchain_cI
      have hlen : li.length - k2 = li.length + 1 := by
        rw [← List.length_drop k2 li, hdrop]
        simp
      have hk2lt : k2 < li.length := (List.get?_eq_some.mp hk2).1
      omega
    -- fold over a sublist of i's children
    have foldspec : ∀ (cs : List String), (∀ c ∈ cs, c ∈ i.children) → cs.Nodup →
        ∀ (t : List Instance), t.map skel = insts.map skel →
        (∀ q : String,
          (¬ ∃ (c : String) (cI e : Instance) (l : List Instance) (k : Nat),
            c ∈ cs ∧ getInstance insts c = some cI ∧ getInstance insts q = some e ∧
            chainList insts insts.length e = some l ∧ l.get? k = some cI) →
          getInstance (cs.foldl
              (fun acc cid => updateRec fuel acc cid
                (some (computeWorld pw i_s.localTransform))) t) q
            = getInstance t q) ∧
        (∀ (c : String) (cI e : Instance) (l : List Instance) (k : Nat),
          c ∈ cs → getInstance insts c = some cI → getInstance insts e.id = some e →
          chainList insts insts.length e = some l → l.get? k = some cI →
          getInstance (cs.foldl
              (fun acc cid => updateRec fuel acc cid
                (some (computeWorld pw i_s.localTransform))) t) e.id
            = some { e with worldTransform :=
                (addW (some (computeWorld pw i_s.localTransform))
                  (sumLocals (l.take (k + 1)))) }) := by
      intro cs
      induction cs with
      | nil =>
        intro _ _ t ht
        exact ⟨fun q _ => rfl, fun c cI e l k hc => absurd hc (List.not_mem_nil c)⟩
      | cons c cs' ihcs =>
        intro hsub hnodc t ht
        have hsub' : ∀ c' ∈ cs', c' ∈ i.children :=
          fun c' h' => hsub c' (List.mem_cons_of_mem c h')
        have hnodc' : cs'.Nodup := (List.nodup_cons.mp hnodc).2
        have hcnot : c ∉ cs' := (List.nodup_cons.mp hnodc).1
        cases hcI : getInstance insts c with
        | none =>
          have htc : getInstance t c = none := getInstance_skel_none ht.symm hcI
          have ht1 : updateRec fuel t c (some (computeWorld pw i_s.localTransform)) = t := by
            cases fuel with
            | zero => rfl
            | succ m => simp [updateRec, htc]
          obtain ⟨u1, u2⟩ := ihcs hsub' hnodc' t ht
          constructor
          · intro q hq
            rw [List.foldl_cons, ht1]
            refine u1 q ?_
            rintro ⟨c', cI', e, l, k, hc', h2, h3, h4, h5⟩
            exact hq ⟨c', cI', e, l, k, List.mem_cons_of_mem c hc', h2, h3, h4, h5⟩
          · intro c' cI' e l k hc' hcI' hee hle hk
            rcases List.mem_cons.mp hc' with hceq | hc'mem
            · rw [hceq, hcI] at hcI'
              simp at hcI'
            · rw [List.foldl_cons, ht1]
              exact u2 c' cI' e l k hc'mem hcI' hee hle hk
        | some cI =>
          have hcIid : cI.id = c := getInstance_id hcI
          have hcImem : cI ∈ insts := getInstance_mem hcI
          have hcmem : c ∈ i.children := hsub c (List.mem_cons_self c cs')
          have hcIpar : cI.parentId = some i.id := wf_forward hwf himem hcmem hcI
          have hchain_cI : chainList insts insts.length cI = some (cI :: li) :=
            chainList_child hcImem hcIpar hii hli
          have hfuel_cI : ∀ (e : Instance) (l : List Instance) (k : Nat),
              getInstance insts e.id = some e →
              chainList insts insts.length e = some l → l.get? k = some cI → k < fuel := by
            intro e l k hee hle hk
            have hdrop : l.drop k = cI :: li := under_drop hle hk hchain_cI
            have hk1 : l.get? (k + 1) = some i := by
              rw [hti] at hdrop
              exact get_after_drop hdrop
            have := hfuel e l (k + 1) hee hle hk1
            omega
          obtain ⟨ih_un, ih_wr⟩ := ih t c cI (some (computeWorld pw i_s.localTransform))
            ht hcI ⟨cI :: li, hchain_cI⟩ hfuel_cI
          have ht1 : (updateRec fuel t c
              (some (computeWorld pw i_s.localTransform))).map skel = insts.map skel := by
            rw [updateRec_map_skel]
            exact ht
          obtain ⟨u1, u2⟩ := ihcs hsub' hnodc'
            (updateRec fuel t c (some (computeWorld pw i_s.localTransform))) ht1
          constructor
          · intro q hq
            rw [List.foldl_cons]
            rw [u1 q ?_, ih_un q ?_]
            · rintro ⟨e, l, k, he, hl, hk⟩
              exact hq ⟨c, cI, e, l, k, List.mem_cons_self c cs', hcI, he, hl, hk⟩
            · rintro ⟨c', cI', e, l, k, hc', h2, h3, h4, h5⟩
              exact hq ⟨c', cI', e, l, k, List.mem_cons_of_mem c hc', h2, h3, h4, h5⟩
          · intro c' cI' e l k hc' hcI' hee hle hk
            rcases List.mem_cons.mp hc' with hceq | hc'mem
            · have hcIeq : cI' = cI := by
                rw [hceq, hcI] at hcI'
                simpa using hcI'.symm
              rw [hcIeq] at hk
              have hw1 := ih_wr e l k hee hle hk
              rw [List.foldl_cons]
              rw [u1 e.id ?_]
              · exact hw1
              · rintro ⟨c'', cI'', e2, l2, k2, hc''mem, hcI'', he2, hl2, hk2⟩
                have he2e : e2 = e := by
                  rw [hee] at he2
                  simpa using he2.symm
                rw [he2e] at hl2
                have hl2l : l2 = l := chainList_uniq hl2 hle
                rw [hl2l] at hk2
                have hcI''par : cI''.parentId = some i.id :=
                  wf_forward hwf himem (hsub' c'' hc''mem) hcI''
                have hchain_cI'' : chainList insts insts.length cI'' = some (cI'' :: li) :=
                  chainList_child (getInstance_mem hcI'') hcI''par hii hli
                have hd1 : l.drop k = cI :: li := under_drop hle hk hchain_cI
                have hd2 : l.drop k2 = cI'' :: li := under_drop hle hk2 hchain_cI''
                obtain ⟨hkk, hcc⟩ := drop_cons_eq_len hd1 hd2
                have hccid : c = c'' := by
                  rw [← hcIid, hcc, getInstance_id hcI'']
                exact hcnot (hccid ▸ hc''mem)
            · rw [List.foldl_cons]
              exact u2 c' cI' e l k hc'mem hcI' hee hle hk
    -- assemble the two conclusions
    constructor
    · intro q hq
      have hqid : q ≠ id := by
        intro hqeq
        subst hqeq
        refine hq ⟨i, li, 0, hij, hli, ?_⟩
        rw [hti]; rfl
      obtain ⟨u1, _⟩ := foldspec i_s.children
        (fun c h => hch ▸ h) (hch ▸ wf_chNodup hwf himem)
        (updateFirst s id
          (fun j => { j with worldTransform := computeWorld pw i_s.localTransform }))
        hs1skel
      rw [heq, u1 q ?_, updateFirst_lookup_ne
        (fun j => { j with worldTransform := computeWorld pw i_s.localTransform })
        (fun x => rfl) hqid]
      rintro ⟨c, cI, e, l, k, hcmem, hcI, he, hl, hk⟩
      have hcIpar : cI.parentId = some i.id :=
        wf_forward hwf himem (hch ▸ hcmem) hcI
      have hchain_cI : chainList insts insts.length cI = some (cI :: li) :=
        chainList_child (getInstance_mem hcI) hcIpar hii hli
      have hdrop : l.drop k = cI :: li := under_drop hl hk hchain_cI
      rw [hti] at hdrop
      exact hq ⟨e, l, k + 1, he, hl, get_after_drop hdrop⟩
    · intro e l k hee hle hk
      obtain ⟨u1, u2⟩ := foldspec i_s.children
        (fun c h => hch ▸ h) (hch ▸ wf_chNodup hwf himem)
        (updateFirst s id
          (fun j => { j with worldTransform := computeWorld pw i_s.localTransform }))
        hs1skel
      cases k with
      | zero =>
        obtain ⟨te, hte⟩ := chainList_head hle
        have hei : e = i := by
          rw [hte] at hk
          simpa using hk
        subst hei
        have hll : l = li := chainList_uniq hle hli
        subst hll
        have hbase0 : getInstance (updateFirst s id
            (fun j => { j with worldTransform := computeWorld pw i_s.localTransform })) id
            = some { e with worldTransform := computeWorld pw i_s.localTransform } := by
          rw [updateFirst_lookup_eq
            (fun j => { j with worldTransform := computeWorld pw i_s.localTransform })
            (fun x => rfl) his]
          exact congrArg some (skel_set_world hskel_i _)
        have hbase : getInstance (updateFirst s id
            (fun j => { j with worldTransform := computeWorld pw i_s.localTransform })) e.id
            = some { e with worldTransform := computeWorld pw i_s.localTransform } := by
          conv_lhs => rw [hid_eq]
          exact hbase0
        rw [heq, u1 e.id ?_, hbase]
        · have htake : l.take 1 = [e] := by rw [hte]; rfl
          rw [htake, addW_sum_single, hloc]
        · rintro ⟨c, cI, e2, l2, k2, hcmem, hcI, he2, hl2, hk2⟩
          have he2e : e2 = e := by
            rw [hid_eq, hij] at he2
            simpa using he2.symm
          rw [he2e] at hl2
          have hl2l : l2 = l := chainList_uniq hl2 hle
          rw [hl2l] at hk2
          have hcIpar : cI.parentId = some e.id :=
            wf_forward hwf himem (hch ▸ hcmem) hcI
          have hcIl : getInstance insts cI.id = some cI := by
            rw [getInstance_id hcI]
            exact hcI
          exact hnochild cI k2 hcIl hcIpar hk2
      | succ k' =>
        have hk'lt : k' < l.length := by
          have := (List.get?_eq_some.mp hk).1
          omega
        obtain ⟨x, hx⟩ : ∃ x, l.get? k' = some x := by
          cases hxx : l.get? k' with
          | none =>
            have := List.get?_eq_none.mp hxx
            omega
          | some x => exact ⟨x, rfl⟩
        have hxl : x ∈ l := List.get?_mem hx
        have hxmem : x ∈ insts := by
          rcases chainList_mem insts.length hle x hxl with hxe | hin
          · rw [hxe]; exact getInstance_mem hee
          · exact hin
        obtain ⟨pid, hxpar, hpg⟩ := chainList_step hle hx hk
        have hxpar' : x.parentId = some i.id := by
          rw [hxpar, ← getInstance_id hpg]
        have hxid_ch : x.id ∈ i.children := wf_backward hwf hxmem hxpar' hii
        have hxid_ch' : x.id ∈ i_s.children := by rw [hch]; exact hxid_ch
        have hxself : getInstance insts x.id = some x := getInstance_self hnd hxmem
        have hres := u2 x.id x e l k' hxid_ch' hxself hee hle hx
        rw [heq, hres]
        have hsum : sumLocals (l.take (k' + 1 + 1)) =
            ⟨(sumLocals (l.take (k' + 1))).x + i.localTransform.x,
             (sumLocals (l.take (k' + 1))).y + i.localTransform.y⟩ :=
          sumLocals_take_succ hk
        rw [hsum, hloc, computeWorld_eq_addW, addW_assoc]

/-! ### Correctness of `updateWorldTransforms` -/

theorem root_chain {insts : List Instance} {r : Instance} (hmem : r ∈ insts)
    (hroot : r.parentId = none) : chainList insts insts.length r = some [r] := by
  obtain ⟨m, hm⟩ : ∃ m, insts.length = m + 1 :=
    ⟨insts.length - 1, by
      have := List.length_pos.mpr (List.ne_nil_of_mem hmem)
      omega⟩
  rw [hm]
  simp [chainList, hroot]

theorem root_pos {insts : List Instance} {e r : Instance} {l : List Instance} {k : Nat}
    (hle : chainList insts insts.length e = some l) (hk : l.get? k = some r)
    (hrmem : r ∈ insts) (hroot : r.parentId = none) :
    l.getLast? = some r ∧ k = l.length - 1 := by
  have hrchain : chainList insts insts.length r = some [r] := root_chain hrmem hroot
  have hdrop : l.drop k = [r] := under_drop hle hk hrchain
  have hklt : k < l.length := (List.get?_eq_some.mp hk).1
  have hlen1 : (l.drop k).length = 1 := by rw [hdrop]; rfl
  rw [List.length_drop] at hlen1
  have hk_eq : k = l.length - 1 := by omega
  constructor
  · rw [List.getLast?_eq_get?, ← hk_eq]
    exact hk
  · exact hk_eq

theorem updW_fold_untouched {insts : List Instance}
    (hnd : (insts.map Instance.id).Nodup) (hwf : wfB insts = true) :
    ∀ (rs : List Instance), (∀ r ∈ rs, r ∈ insts ∧ r.parentId = none) →
    ∀ (t : List Instance), t.map skel = insts.map skel →
    ∀ q : String,
      (¬ ∃ (r e : Instance) (l : List Instance) (k : Nat), r ∈ rs ∧
        getInstance insts q = some e ∧ chainList insts insts.length e = some l ∧
        l.get? k = some r) →
      getInstance (rs.foldl (fun acc r => updateRec insts.length acc r.id none) t) q
        = getInstance t q := by
  intro rs
  induction rs with
  | nil => intro _ t _ q _; rfl
  | cons r rs' ihrs =>
    intro hprops t ht q hq
    have hrmem : r ∈ insts := (hprops r (List.mem_cons_self r rs')).1
    have hrroot : r.parentId = none := (hprops r (List.mem_cons_self r rs')).2
    have hrl : getInstance insts r.id = some r := getInstance_self hnd hrmem
    have hrchain : chainList insts insts.length r = some [r] := root_chain hrmem hrroot
    have hfuel : ∀ (e : Instance) (l : List Instance) (k : Nat),
        getInstance insts e.id = some e → chainList insts insts.length e = some l →
        l.get? k = some r → k < insts.length := by
      intro e l k hee hle hk
      have h1 := (List.get?_eq_some.mp hk).1
      have h2 := chainList_length_le (getInstance_mem hee) hle
      omega
    obtain ⟨un, _⟩ := updateRec_spec hnd hwf insts.length t r.id r none ht hrl
      ⟨[r], hrchain⟩ hfuel
    have ht1 : (updateRec insts.length t r.id none).map skel = insts.map skel := by
      rw [updateRec_map_skel]
      exact ht
    rw [List.foldl_cons]
    rw [ihrs (fun r' h' => hprops r' (List.mem_cons_of_mem r h'))
      (updateRec insts.length t r.id none) ht1 q ?_]
    · refine un q ?_
      rintro ⟨e, l, k, he, hl, hk⟩
      exact hq ⟨r, e, l, k, List.mem_cons_self r rs', he, hl, hk⟩
    · rintro ⟨r', e, l, k, hr', he, hl, hk⟩
      exact hq ⟨r', e, l, k, List.mem_cons_of_mem r hr', he, hl, hk⟩

theorem updW_fold_write {insts : List Instance}
    (hnd : (insts.map Instance.id).Nodup) (hwf : wfB insts = true) :
    ∀ (rs : List Instance), (∀ r ∈ rs, r ∈ insts ∧ r.parentId = none) → rs.Nodup →
    ∀ (t : List Instance), t.map skel = insts.map skel →
    ∀ (rT e : Instance) (l : List Instance), rT ∈ rs →
      getInstance insts e.id = some e →
      chainList insts insts.length e = some l →
      l.getLast? = some rT → rT.parentId = none →
      getInstance (rs.foldl (fun acc r => updateRec insts.length acc r.id none) t) e.id
        = some { e with worldTransform := sumLocals l } := by
  intro rs
  induction rs with
  | nil => intro _ _ t _ rT e l hmem; exact absurd hmem (List.not_mem_nil rT)
  | cons r rs' ihrs =>
    intro hprops hnodup t ht rT e l hrT hee hle hlast hroot
    have hrmem : r ∈ insts := (hprops r (List.mem_cons_self r rs')).1
    have hrroot : r.parentId = none := (hprops r (List.mem_cons_self r rs')).2
    have hrl : getInstance insts r.id = some r := getInstance_self hnd hrmem
    have hrchain : chainList insts insts.length r = some [r] := root_chain hrmem hrroot
    have hfuel : ∀ (e2 : Instance) (l2 : List Instance) (k : Nat),
        getInstance insts e2.id = some e2 → chainList insts insts.length e2 = some l2 →
        l2.get? k = some r → k < insts.length := by
      intro e2 l2 k he2 hl2 hk
      have h1 := (List.get?_eq_some.mp hk).1
      have h2 := chainList_length_le (getInstance_mem he2) hl2
      omega
    obtain ⟨un, wr⟩ := updateRec_spec hnd hwf insts.length t r.id r none ht hrl
      ⟨[r], hrchain⟩ hfuel
    have ht1 : (updateRec insts.length t r.id none).map skel = insts.map skel := by
      rw [updateRec_map_skel]
      exact ht
    have hlpos : 0 < l.length := by
      by_contra hcon
      have : l = [] := List.eq_nil_of_length_eq_zero (by omega)
      rw [this] at hlast
      simp at hlast
    have hgetlast : l.get? (l.length - 1) = some rT := by
      rw [← List.getLast?_eq_get?]
      exact hlast
    rcases List.mem_cons.mp hrT with hrTr | hrT'
    · -- the write happens at this head root; the remaining roots leave e alone
      have hk : l.get? (l.length - 1) = some r := by rw [← hrTr]; exact hgetlast
      have hwrite := wr e l (l.length - 1) hee hle hk
      have htake : l.take (l.length - 1 + 1) = l := by
        have harith : l.length - 1 + 1 = l.length := by omega
        rw [harith, List.take_length]
      rw [htake] at hwrite
      rw [List.foldl_cons]
      rw [updW_fold_untouched hnd hwf rs'
        (fun x hx => hprops x (List.mem_cons_of_mem r hx))
        (updateRec insts.length t r.id none) ht1 e.id ?_]
      · exact hwrite
      · rintro ⟨r2, e2, l2, k2, hr2, he2, hl2, hk2⟩
        have he2e : e2 = e := by
          rw [hee] at he2
          simpa using he2.symm
        rw [he2e] at hl2
        have hl2l : l2 = l := chainList_uniq hl2 hle
        rw [hl2l] at hk2
        have hr2mem : r2 ∈ insts := (hprops r2 (List.mem_cons_of_mem r hr2)).1
        have hr2root : r2.parentId = none := (hprops r2 (List.mem_cons_of_mem r hr2)).2
        obtain ⟨hlast2, hk2eq⟩ := root_pos hle hk2 hr2mem hr2root
        have hr2rT : r2 = rT := by
          rw [hlast] at hlast2
          simpa using hlast2.symm
        have hr2r : r2 = r := by rw [hr2rT, hrTr]
        exact (List.nodup_cons.mp hnodup).1 (hr2r ▸ hr2)
    · -- the write happens further along the fold
      rw [List.foldl_cons]
      exact ihrs (fun x hx => hprops x (List.mem_cons_of_mem r hx))
        (List.nodup_cons.mp hnodup).2
        (updateRec insts.length t r.id none) ht1 rT e l hrT' hee hle hlast hroot

theorem propagate_rooted {insts : List Instance}
    (hnd : (insts.map Instance.id).Nodup) (hwf : wfB insts = true)
    {e rT : Instance} {l : List Instance}
    (hee : getInstance insts e.id = some e)
    (hle : chainList insts insts.length e = some l)
    (hlast : l.getLast? = some rT) (hroot : rT.parentId = none) :
    getInstance (updateWorldTransforms insts) e.id =
      some { e with worldTransform := sumLocals l } := by
  have hrTl : rT ∈ l := List.mem_of_getLast?_eq_some hlast
  have hrTmem : rT ∈ insts := by
    rcases chainList_mem insts.length hle rT hrTl with hre | hin
    · rw [hre]; exact getInstance_mem hee
    · exact hin
  have hrTroots : rT ∈ insts.filter (fun i => i.parentId = none) :=
    List.mem_filter.mpr ⟨hrTmem, by simp [hroot]⟩
  have hprops : ∀ r ∈ insts.filter (fun i => i.parentId = none),
      r ∈ insts ∧ r.parentId = none := by
    intro r hr
    have h1 := List.mem_filter.mp hr
    exact ⟨h1.1, by simpa using h1.2⟩
  have hnodup : (insts.filter (fun i => i.parentId = none)).Nodup :=
    (List.Nodup.of_map Instance.id hnd).filter _
  exact updW_fold_write hnd hwf (insts.filter (fun i => i.parentId = none)) hprops hnodup
    insts rfl rT e l hrTroots hee hle hlast hroot

theorem propagate_untouched {insts : List Instance}
    (hnd : (insts.map Instance.id).Nodup) (hwf : wfB insts = true)
    {e : Instance} (hee : getInstance insts e.id = some e)
    (hstale : ∀ l, chainList insts insts.length e = some l →
      ∀ r, l.getLast? = some r → r.parentId ≠ none) :
    getInstance (updateWorldTransforms insts) e.id = some e := by
  have hprops : ∀ r ∈ insts.filter (fun i => i.parentId = none),
      r ∈ insts ∧ r.parentId = none := by
    intro r hr
    have h1 := List.mem_filter.mp hr
    exact ⟨h1.1, by simpa using h1.2⟩
  show getInstance ((insts.filter (fun i => i.parentId = none)).foldl
    (fun acc r => updateRec insts.length acc r.id none) insts) e.id = some e
  rw [updW_fold_untouched hnd hwf (insts.filter (fun i => i.parentId = none)) hprops
    insts rfl e.id ?_]
  · exact hee
  · rintro ⟨r, e2, l, k, hr, he2, hl, hk⟩
    have he2e : e2 = e := by
      rw [hee] at he2
      simpa using he2.symm
    rw [he2e] at hl
    have hrmem : r ∈ insts := (hprops r hr).1
    have hrroot : r.parentId = none := (hprops r hr).2
    obtain ⟨hlast, _⟩ := root_pos hl hk hrmem hrroot
    exact hstale l hl r hlast hrroot

/-- C2 amended.  On a forest with unique ids, consistent parent/children
links, terminating ancestor chains and every parent id resolving, after
`updateWorldTransforms` every entity's world transform equals the sum of
local transforms along its path to a root — where, as the code has it, a
root is an entity with no parent (`parentId === null`); the claim's wider
root rule, which also counts an entity with an unresolvable parent id as a
root, fails on the code (see the counterexample) and is here replaced by
the resolvability hypothesis. -/
theorem claim_C2_amended (insts : List Instance)
    (hnd : uniqueIdsB insts = true) (hwf : wfB insts = true)
    (hres : parentsResolveB insts = true) (hrooted : rootedAllB insts = true) :
    ∀ e ∈ insts, ∃ l, chainList insts insts.length e = some l ∧
      chainWorld insts insts.length e = some (sumLocals l) ∧
      getInstance (updateWorldTransforms insts) e.id =
        some { e with worldTransform := sumLocals l } := by
  intro e he
  have hnd' := uniqueIdsB_spec hnd
  obtain ⟨l, hl⟩ := rootedAllB_spec hrooted e he
  cases hlast : l.getLast? with
  | none =>
    exfalso
    obtain ⟨tt, htt⟩ := chainList_head hl
    rw [List.getLast?_eq_get?] at hlast
    have hlen := List.get?_eq_none.mp hlast
    have : 0 < l.length := by rw [htt]; simp
    omega
  | some rT =>
    rcases chainList_last insts.length hl hlast with hnone | ⟨pid, hpid, hgnone⟩
    · have hee := getInstance_self hnd' he
      have hw := propagate_rooted hnd' hwf hee hl hlast hnone
      exact ⟨l, hl, by simp [chainWorld, hl], hw⟩
    · exfalso
      have hrTmem : rT ∈ insts := by
        rcases chainList_mem _ hl rT (List.mem_of_getLast?_eq_some hlast) with hre | hin
        · rw [hre]; exact he
        · exact hin
      obtain ⟨p, hp⟩ := parentsResolveB_spec hres rT hrTmem pid hpid
      rw [hp] at hgnone
      cases hgnone

theorem claim_C2_witness :
    ∃ l, chainList [aW, bW] ([aW, bW] : List Instance).length bW = some l ∧
      chainWorld [aW, bW] ([aW, bW] : List Instance).length bW = some (sumLocals l) ∧
      getInstance (updateWorldTransforms [aW, bW]) bW.id =
        some { bW with worldTransform := sumLocals l } :=
  claim_C2_amended [aW, bW] (by decide) (by decide) (by decide) (by decide) bW (by decide)

/-! ### Generic lookup transfer lemmas -/

theorem getInstance_map_g {α : Type} (g : Instance → α)
    (hg : ∀ a b, g a = g b → a.id = b.id) :
    ∀ {s s' : List Instance}, s.map g = s'.map g →
      ∀ q, (getInstance s q).map g = (getInstance s' q).map g := by
  intro s
  induction s with
  | nil =>
    intro s' h q
    cases s' with
    | nil => rfl
    | cons b bs => simp at h
  | cons a as ih =>
    intro s' h q
    cases s' with
    | nil => simp at h
    | cons b bs =>
      simp only [List.map_cons, List.cons.injEq] at h
      obtain ⟨hab, hrest⟩ := h
      have hid : a.id = b.id := hg a b hab
      by_cases hq : a.id = q
      · have hq' : b.id = q := hid ▸ hq
        simp [getInstance, List.find?_cons, hq, hq', hab]
      · have hq' : ¬ b.id = q := fun hh => hq (by rw [hid, hh])
        have := ih hrest q
        simpa [getInstance, List.find?_cons, hq, hq'] using this

theorem updateFirst_map_g {α : Type} (g : Instance → α) {s : List Instance} {id : String}
    (f : Instance → Instance) (hf : ∀ x, g (f x) = g x) :
    (updateFirst s id f).map g = s.map g := by
  induction s with
  | nil => rfl
  | cons a as ih =>
    by_cases h : a.id = id
    · simp [updateFirst, h, hf]
    · simp [updateFirst, h, ih]

theorem updateFirst_map_id {s : List Instance} {id : String}
    (f : Instance → Instance) (hf : ∀ x, (f x).id = x.id) :
    (updateFirst s id f).map Instance.id = s.map Instance.id :=
  updateFirst_map_g Instance.id f hf

theorem updateFirst_lookup_gen {s : List Instance} {id q : String}
    (f : Instance → Instance) (hf : ∀ x, (f x).id = x.id)
    {e : Instance} (h : getInstance s q = some e) :
    ∃ e', getInstance (updateFirst s id f) q = some e' ∧ (e' = e ∨ e' = f e) := by
  by_cases hq : q = id
  · subst hq
    exact ⟨f e, updateFirst_lookup_eq f hf h, Or.inr rfl⟩
  · exact ⟨e, by rw [updateFirst_lookup_ne f hf hq]; exact h, Or.inl rfl⟩

theorem mem_of_map_eq {α : Type} {g : Instance → α} {s s' : List Instance}
    (h : s.map g = s'.map g) {x : Instance} (hx : x ∈ s) : ∃ y ∈ s', g y = g x := by
  have h1 : g x ∈ s'.map g := by
    rw [← h]
    exact List.mem_map_of_mem g hx
  obtain ⟨y, hy, hgy⟩ := List.mem_map.mp h1
  exact ⟨y, hy, hgy⟩

theorem chainKey_fields {a b : Instance} (h : chainKey a = chainKey b) :
    a.id = b.id ∧ a.parentId = b.parentId ∧ a.localTransform = b.localTransform := by
  simp only [chainKey, Prod.mk.injEq] at h
  exact ⟨h.1, h.2.1, h.2.2⟩

theorem ancestorIds_skel {s s' : List Instance} (h : s.map skel = s'.map skel) :
    ∀ (f : Nat) (x x' : Instance), skel x = skel x' →
      ancestorIds s f x = ancestorIds s' f x' := by
  intro f
  induction f with
  | zero => intro x x' _; rfl
  | succ f ih =>
    intro x x' hxx
    have hpar : x.parentId = x'.parentId := (skel_fields hxx).2.1
    cases hp : x.parentId with
    | none =>
      have hp' : x'.parentId = none := by rw [← hpar]; exact hp
      simp [ancestorIds, hp, hp']
    | some pid =>
      have hp' : x'.parentId = some pid := by rw [← hpar]; exact hp
      have hcor := getInstance_map_g skel (fun a b hh => (skel_fields hh).1) h pid
      cases hg : getInstance s pid with
      | none =>
        have hg' : getInstance s' pid = none := by
          rw [hg] at hcor
          cases hgg : getInstance s' pid with
          | none => rfl
          | some z => rw [hgg] at hcor; simp at hcor
        simp [ancestorIds, hp, hp', hg, hg']
      | some p =>
        rw [hg] at hcor
        cases hgg : getInstance s' pid with
        | none => rw [hgg] at hcor; simp at hcor
        | some p' =>
          rw [hgg] at hcor
          simp only [Option.map_some', Option.some.injEq] at hcor
          have hpid : p.id = p'.id := (skel_fields hcor).1
          simp only [ancestorIds, hp, hp', hg, hgg]
          rw [hpid, ih p p' hcor]

theorem updW_map_skel (insts : List Instance) :
    (updateWorldTransforms insts).map skel = insts.map skel := by
  show ((insts.filter (fun i => i.parentId = none)).foldl
    (fun acc r => updateRec insts.length acc r.id none) insts).map skel = insts.map skel
  refine foldl_inv (fun acc => List.map skel acc = insts.map skel) ?_ _ _ rfl
  intro a b pa
  show (updateRec insts.length a b.id none).map skel = insts.map skel
  rw [updateRec_map_skel]
  exact pa

theorem getInstance_none_of_ids {s : List Instance} {q : String}
    (h : ∀ e ∈ s, e.id ≠ q) : getInstance s q = none := by
  induction s with
  | nil => rfl
  | cons a as ih =>
    have ha : ¬ (fun i => decide (i.id = q)) a = true := by
      simp
      exact h a (List.mem_cons_self a as)
    show List.find? (fun i => decide (i.id = q)) (a :: as) = none
    rw [List.find?_cons_of_neg as ha]
    exact ih (fun e he => h e (List.mem_cons_of_mem a he))

/-- Chain transfer, avoidance case: if an ancestor chain in the old
collection never passes through the rewritten id, the same chain (up to
the fields the rewrite cannot touch) exists in the new collection. -/
theorem chainList_transfer {s0 s1 : List Instance} {cid : String}
    (hcorr : ∀ q : String, q ≠ cid →
      (getInstance s0 q).map chainKey = (getInstance s1 q).map chainKey)
    (hcid0 : (getInstance s0 cid).isSome = true) :
    ∀ (f : Nat) (x0 x1 : Instance) (l0 : List Instance),
      chainList s0 f x0 = some l0 → (∀ y ∈ l0, y.id ≠ cid) →
      chainKey x1 = chainKey x0 →
      ∃ l1, chainList s1 f x1 = some l1 ∧ l1.map chainKey = l0.map chainKey := by
  intro f
  induction f with
  | zero => intro x0 x1 l0 h; simp [chainList] at h
  | succ f ih =>
    intro x0 x1 l0 h havoid hkey
    obtain ⟨hid1, hpar1, hloc1⟩ := chainKey_fields hkey
    cases hp : x0.parentId with
    | none =>
      have hp1 : x1.parentId = none := by rw [hpar1]; exact hp
      simp only [chainList, hp, Option.some.injEq] at h
      refine ⟨[x1], by simp [chainList, hp1], ?_⟩
      rw [← h]
      simp [hkey]
    | some pid =>
      have hp1 : x1.parentId = some pid := by rw [hpar1]; exact hp
      have hpidne : pid ≠ cid := by
        intro hcontra
        subst hcontra
        cases hg0 : getInstance s0 pid with
        | none =>
          rw [hg0] at hcid0
          simp at hcid0
        | some p =>
          simp only [chainList, hp, hg0] at h
          cases hc : chainList s0 f p with
          | none => rw [hc] at h; simp at h
          | some lp =>
            rw [hc] at h
            simp only [Option.map_some', Option.some.injEq] at h
            obtain ⟨t, rfl⟩ := chainList_head hc
            have hpmem : p ∈ l0 := by rw [← h]; simp
            exact havoid p hpmem (getInstance_id hg0)
      have hc12 := hcorr pid hpidne
      cases hg0 : getInstance s0 pid with
      | none =>
        have hg1 : getInstance s1 pid = none := by
          rw [hg0] at hc12
          cases hgg : getInstance s1 pid with
          | none => rfl
          | some z => rw [hgg] at hc12; simp at hc12
        simp only [chainList, hp, hg0, Option.some.injEq] at h
        refine ⟨[x1], by simp [chainList, hp1, hg1], ?_⟩
        rw [← h]
        simp [hkey]
      | some p0 =>
        rw [hg0] at hc12
        cases hg1 : getInstance s1 pid with
        | none => rw [hg1] at hc12; simp at hc12
        | some p1 =>
          rw [hg1] at hc12
          simp only [Option.map_some', Option.some.injEq] at hc12
          simp only [chainList, hp, hg0] at h
          cases hc : chainList s0 f p0 with
          | none => rw [hc] at h; simp at h
          | some lp0 =>
            rw [hc] at h
            simp only [Option.map_some', Option.some.injEq] at h
            have havoid' : ∀ y ∈ lp0, y.id ≠ cid := by
              intro y hy
              refine havoid y ?_
              rw [← h]
              exact List.mem_cons_of_mem x0 hy
            obtain ⟨lp1, hlp1, hmap⟩ := ih p0 p1 lp0 hc havoid' hc12.symm
            refine ⟨x1 :: lp1, by simp [chainList, hp1, hg1, hlp1], ?_⟩
            rw [← h]
            simp [hkey, hmap]

/-- Chain transfer, termination case: a chain that terminates in the old
collection still terminates in the new one, provided the rewritten
entity's own new chain terminates. -/
theorem chainList_transfer_term {s0 s1 : List Instance} {cid : String}
    (hcorr : ∀ q : String, q ≠ cid →
      (getInstance s0 q).map chainKey = (getInstance s1 q).map chainKey)
    (hcid0 : (getInstance s0 cid).isSome = true)
    (hEterm : ∀ E1, getInstance s1 cid = some E1 → ∃ fE lE, chainList s1 fE E1 = some lE) :
    ∀ (f : Nat) (x0 x1 : Instance) (l0 : List Instance),
      chainList s0 f x0 = some l0 → chainKey x1 = chainKey x0 →
      ∃ f1 l1, chainList s1 f1 x1 = some l1 := by
  intro f
  induction f with
  | zero => intro x0 x1 l0 h; simp [chainList] at h
  | succ f ih =>
    intro x0 x1 l0 h hkey
    obtain ⟨hid1, hpar1, hloc1⟩ := chainKey_fields hkey
    cases hp : x0.parentId with
    | none =>
      have hp1 : x1.parentId = none := by rw [hpar1]; exact hp
      exact ⟨1, [x1], by simp [chainList, hp1]⟩
    | some pid =>
      have hp1 : x1.parentId = some pid := by rw [hpar1]; exact hp
      by_cases hpcid : pid = cid
      · subst hpcid
        cases hg1 : getInstance s1 pid with
        | none => exact ⟨1, [x1], by simp [chainList, hp1, hg1]⟩
        | some E1 =>
          obtain ⟨fE, lE, hlE⟩ := hEterm E1 hg1
          have hmin := chainList_minfuel fE hlE
          exact ⟨lE.length + 1, x1 :: lE, by simp [chainList, hp1, hg1, hmin]⟩
      · have hc12 := hcorr pid hpcid
        cases hg0 : getInstance s0 pid with
        | none =>
          have hg1 : getInstance s1 pid = none := by
            rw [hg0] at hc12
            cases hgg : getInstance s1 pid with
            | none => rfl
            | some z => rw [hgg] at hc12; simp at hc12
          exact ⟨1, [x1], by simp [chainList, hp1, hg1]⟩
        | some p0 =>
          rw [hg0] at hc12
          cases hg1 : getInstance s1 pid with
          | none => rw [hg1] at hc12; simp at hc12
          | some p1 =>
            rw [hg1] at hc12
            simp only [Option.map_some', Option.some.injEq] at hc12
            simp only [chainList, hp, hg0] at h
            cases hc : chainList s0 f p0 with
            | none => rw [hc] at h; simp at h
            | some lp0 =>
              obtain ⟨f1, lp1, hlp1⟩ := ih p0 p1 lp0 hc hc12.symm
              have hmin := chainList_minfuel f1 hlp1
              exact ⟨lp1.length + 1, x1 :: lp1, by simp [chainList, hp1, hg1, hmin]⟩

/-- Chain transfer, passage case: when the old chain reaches the rewritten
id at position m (with no earlier passage), any terminating new chain from
the corresponding start reaches the rewritten entity at the same
position. -/
theorem chain_through_cid {s0 s1 : List Instance} {cid : String}
    (hcorr : ∀ q : String, q ≠ cid →
      (getInstance s0 q).map chainKey = (getInstance s1 q).map chainKey)
    {E1 : Instance} (hcid1 : getInstance s1 cid = some E1) :
    ∀ (m f : Nat) (x0 x1 : Instance) (l0 : List Instance) (z0 : Instance),
      chainList s0 f x0 = some l0 → l0.get? m = some z0 → z0.id = cid →
      (∀ j z, j < m → l0.get? j = some z → z.id ≠ cid) →
      chainKey x1 = chainKey x0 → x0.id ≠ cid →
      ∀ (f1 : Nat) (l1 : List Instance), chainList s1 f1 x1 = some l1 →
        l1.get? m = some E1 := by
  intro m
  induction m with
  | zero =>
    intro f x0 x1 l0 z0 h hm hzid _ hkey hx0
    exfalso
    obtain ⟨t, rfl⟩ := chainList_head h
    simp only [List.get?_cons_zero, Option.some.injEq] at hm
    exact hx0 (by rw [hm]; exact hzid)
  | succ m ihm =>
    intro f x0 x1 l0 z0 h hm hzid hfirst hkey hx0 f1 l1 h1
    obtain ⟨hid1, hpar1, hloc1⟩ := chainKey_fields hkey
    -- the old chain must step to a resolvable parent
    cases hf : f with
    | zero => rw [hf] at h; simp [chainList] at h
    | succ f' =>
      rw [hf] at h
      cases hp : x0.parentId with
      | none =>
        simp only [chainList, hp, Option.some.injEq] at h
        rw [← h] at hm
        simp at hm
      | some pid =>
        cases hg0 : getInstance s0 pid with
        | none =>
          simp only [chainList, hp, hg0, Option.some.injEq] at h
          rw [← h] at hm
          simp at hm
        | some p0 =>
          simp only [chainList, hp, hg0] at h
          cases hc : chainList s0 f' p0 with
          | none => rw [hc] at h; simp at h
          | some lp0 =>
            rw [hc] at h
            simp only [Option.map_some', Option.some.injEq] at h
            have hmp : lp0.get? m = some z0 := by
              rw [← h] at hm
              simpa using hm
            -- the new chain steps the same way
            have hp1 : x1.parentId = some pid := by rw [hpar1]; exact hp
            cases hf1 : f1 with
            | zero => rw [hf1] at h1; simp [chainList] at h1
            | succ f1' =>
              rw [hf1] at h1
              by_cases hpcid : pid = cid
              · -- the next element is the rewritten entity: m must be 0
                cases m with
                | zero =>
                  simp only [chainList, hp1, hpcid, hcid1] at h1
                  cases hc1 : chainList s1 f1' E1 with
                  | none => rw [hc1] at h1; simp at h1
                  | some lE =>
                    rw [hc1] at h1
                    simp only [Option.map_some', Option.some.injEq] at h1
                    obtain ⟨tE, htE⟩ := chainList_head hc1
                    rw [← h1, htE]
                    rfl
                | succ m' =>
                  exfalso
                  have hp0id : p0.id = pid := getInstance_id hg0
                  have : p0.id ≠ cid := by
                    refine hfirst 1 p0 (by omega) ?_
                    rw [← h]
                    obtain ⟨t0, ht0⟩ := chainList_head hc
                    rw [ht0]
                    rfl
                  exact this (hp0id.trans hpcid)
              · have hc12 := hcorr pid hpcid
                rw [hg0] at hc12
                cases hg1 : getInstance s1 pid with
                | none => rw [hg1] at hc12; simp at hc12
                | some p1 =>
                  rw [hg1] at hc12
                  simp only [Option.map_some', Option.some.injEq] at hc12
                  simp only [chainList, hp1, hg1] at h1
                  cases hc1 : chainList s1 f1' p1 with
                  | none => rw [hc1] at h1; simp at h1
                  | some lp1 =>
                    rw [hc1] at h1
                    simp only [Option.map_some', Option.some.injEq] at h1
                    have hfirst' : ∀ j z, j < m → lp0.get? j = some z → z.id ≠ cid := by
                      intro j z hj hz
                      refine hfirst (j + 1) z (by omega) ?_
                      rw [← h]
                      simpa using hz
                    have hp0cid : p0.id ≠ cid := by
                      intro hcontra
                      exact hpcid ((getInstance_id hg0).symm.trans hcontra)
                    have := ihm f' p0 p1 lp0 z0 hc hmp hzid hfirst' hc12.symm hp0cid f1' lp1 hc1
                    rw [← h1]
                    simpa using this

/-! ### Characterization of the `setParent` rewrite -/

theorem detachOld_map_key (insts : List Instance) (childId : String) (child : Instance) :
    (detachOld insts childId child).map chainKey = insts.map chainKey := by
  unfold detachOld
  cases h : jsTruthyId child.parentId with
  | false => simp [h]
  | true =>
    simp only [h, if_true]
    exact updateFirst_map_g chainKey _ (fun x => rfl)

theorem detachOld_map_id (insts : List Instance) (childId : String) (child : Instance) :
    (detachOld insts childId child).map Instance.id = insts.map Instance.id := by
  unfold detachOld
  cases h : jsTruthyId child.parentId with
  | false => simp [h]
  | true =>
    simp only [h, if_true]
    exact updateFirst_map_id _ (fun x => rfl)

theorem detachOld_lookup_child {insts : List Instance} {childId : String} {child : Instance}
    (hchild : getInstance insts childId = some child) :
    ∃ c1, getInstance (detachOld insts childId child) childId = some c1 ∧
      c1.id = child.id ∧ c1.parentId = child.parentId ∧
      c1.worldTransform = child.worldTransform := by
  unfold detachOld
  cases h : jsTruthyId child.parentId with
  | false =>
    simp [h]
    exact ⟨child, hchild, rfl, rfl, rfl⟩
  | true =>
    simp only [h, if_true]
    rcases updateFirst_lookup_gen
      (fun op => { op with children := op.children.filter (fun cid => cid ≠ childId) })
      (fun x => rfl) hchild with ⟨c1, hc1, hor⟩
    refine ⟨c1, hc1, ?_, ?_, ?_⟩ <;> rcases hor with he | he <;> rw [he]

theorem setParentInsts_spec {insts : List Instance} {childId : String}
    {parentId : Option String} {child : Instance} (parent? : Option Instance)
    (hchild : getInstance insts childId = some child) :
    (setParentInsts insts childId parentId child parent?).map Instance.id
        = insts.map Instance.id ∧
    (∀ q, q ≠ childId →
      (getInstance (setParentInsts insts childId parentId child parent?) q).map chainKey
        = (getInstance insts q).map chainKey) ∧
    ∃ child3, getInstance (setParentInsts insts childId parentId child parent?) childId
        = some child3 ∧
      child3.id = child.id ∧ child3.parentId = parentId ∧
      child3.worldTransform = child.worldTransform ∧
      child3.localTransform = (match parent? with
        | some parent =>
          (⟨child.worldTransform.x - parent.worldTransform.x,
            child.worldTransform.y - parent.worldTransform.y⟩ : Transform)
        | none => child.worldTransform) := by
  have hkeyid : ∀ a b : Instance, chainKey a = chainKey b → a.id = b.id :=
    fun a b hh => (chainKey_fields hh).1
  obtain ⟨c1, hc1, hc1id, hc1par, hc1w⟩ := detachOld_lookup_child hchild
  have h1key := detachOld_map_key insts childId child
  have h1id := detachOld_map_id insts childId child
  have h2child : getInstance
      (updateFirst (detachOld insts childId child) childId
        (fun c => { c with parentId := parentId })) childId
      = some { c1 with parentId := parentId } :=
    updateFirst_lookup_eq _ (fun x => rfl) hc1
  have h2q : ∀ q, q ≠ childId → getInstance
      (updateFirst (detachOld insts childId child) childId
        (fun c => { c with parentId := parentId })) q
      = getInstance (detachOld insts childId child) q :=
    fun q hq => updateFirst_lookup_ne _ (fun x => rfl) hq
  have h2id : (updateFirst (detachOld insts childId child) childId
      (fun c => { c with parentId := parentId })).map Instance.id
      = insts.map Instance.id := by
    rw [updateFirst_map_id (fun c => { c with parentId := parentId }) (fun x => rfl)]
    exact h1id
  cases parent? with
  | none =>
    refine ⟨?_, ?_, ?_⟩
    · show (updateFirst _ childId _).map Instance.id = insts.map Instance.id
      rw [updateFirst_map_id
        (fun c => { c with localTransform := child.worldTransform }) (fun x => rfl)]
      exact h2id
    · intro q hq
      show (getInstance (updateFirst _ childId _) q).map chainKey
        = (getInstance insts q).map chainKey
      rw [updateFirst_lookup_ne
        (fun c => { c with localTransform := child.worldTransform }) (fun x => rfl) hq,
        h2q q hq]
      exact (getInstance_map_g chainKey hkeyid h1key q)
    · refine ⟨{ { c1 with parentId := parentId } with
          localTransform := child.worldTransform }, ?_, ?_, rfl, ?_, rfl⟩
      · exact updateFirst_lookup_eq _ (fun x => rfl) h2child
      · exact hc1id
      · exact hc1w
  | some parent =>
    have h3akey : (updateFirst
        (updateFirst (detachOld insts childId child) childId
          (fun c => { c with parentId := parentId }))
        parent.id
        (fun p =>
          if childId ∈ p.children then p
          else { p with children := p.children ++ [childId] })).map chainKey
        = (updateFirst (detachOld insts childId child) childId
          (fun c => { c with parentId := parentId })).map chainKey := by
      refine updateFirst_map_g chainKey _ (fun x => ?_)
      by_cases hx : childId ∈ x.children <;> simp [hx, chainKey]
    have h3aid : (updateFirst
        (updateFirst (detachOld insts childId child) childId
          (fun c => { c with parentId := parentId }))
        parent.id
        (fun p =>
          if childId ∈ p.children then p
          else { p with children := p.children ++ [childId] })).map Instance.id
        = insts.map Instance.id := by
      rw [updateFirst_map_id _ (fun x => by by_cases hx : childId ∈ x.children <;> simp [hx])]
      exact h2id
    obtain ⟨c3a, hc3a, hc3aor⟩ := updateFirst_lookup_gen
      (fun p =>
        if childId ∈ p.children then p
        else { p with children := p.children ++ [childId] })
      (fun x => by by_cases hx : childId ∈ x.children <;> simp [hx]) h2child
    have hc3afields : c3a.id = child.id ∧ c3a.parentId = parentId ∧
        c3a.worldTransform = child.worldTransform := by
      have hkeep : ∀ x : Instance,
          ((fun p => if childId ∈ p.children then p
            else { p with children := p.children ++ [childId] }) x).id = x.id ∧
          ((fun p => if childId ∈ p.children then p
            else { p with children := p.children ++ [childId] }) x).parentId = x.parentId ∧
          ((fun p => if childId ∈ p.children then p
            else { p with children := p.children ++ [childId] }) x).worldTransform
            = x.worldTransform := by
        intro x
        by_cases hx : childId ∈ x.children <;> simp [hx]
      rcases hc3aor with he | he
      · rw [he]
        exact ⟨hc1id, rfl, hc1w⟩
      · rw [he]
        obtain ⟨ha, hb, hc⟩ := hkeep { c1 with parentId := parentId }
        rw [ha, hb, hc]
        exact ⟨hc1id, rfl, hc1w⟩
    refine ⟨?_, ?_, ?_⟩
    · show (updateFirst _ childId _).map Instance.id = insts.map Instance.id
      rw [updateFirst_map_id
        (fun c => ({ c with localTransform :=
          ⟨child.worldTransform.x - parent.worldTransform.x,
           child.worldTransform.y - parent.worldTransform.y⟩ } : Instance)) (fun x => rfl)]
      exact h3aid
    · intro q hq
      show (getInstance (updateFirst _ childId _) q).map chainKey
        = (getInstance insts q).map chainKey
      rw [updateFirst_lookup_ne
        (fun c => ({ c with localTransform :=
          ⟨child.worldTransform.x - parent.worldTransform.x,
           child.worldTransform.y - parent.worldTransform.y⟩ } : Instance))
        (fun x => rfl) hq]
      have hstep := getInstance_map_g chainKey hkeyid h3akey q
      rw [hstep, h2q q hq]
      exact (getInstance_map_g chainKey hkeyid h1key q)
    · refine ⟨{ c3a with localTransform :=
          ⟨child.worldTransform.x - parent.worldTransform.x,
           child.worldTransform.y - parent.worldTransform.y⟩ }, ?_, ?_, ?_, ?_, rfl⟩
      · exact updateFirst_lookup_eq _ (fun x => rfl) hc3a
      · exact hc3afields.1
      · exact hc3afields.2.1
      · exact hc3afields.2.2

theorem setParent_fail_child {st : AppState} {childId : String} {parentId : Option String}
    (h : getInstance st.instances childId = none) :
    setParent st childId parentId = (st, false) := by
  simp [setParent, h]

theorem setParent_success {st : AppState} {childId : String} {parentId : Option String}
    {child : Instance} (hchild : getInstance st.instances childId = some child)
    (hok : ¬ (jsTruthyId parentId = true ∧
      (if jsTruthyId parentId then getInstance st.instances (parentId.getD "") else none)
        = none)) :
    setParent st childId parentId =
      ({ st with instances := (updateWorldTransforms
          (setParentInsts st.instances childId parentId child
            (if jsTruthyId parentId then getInstance st.instances (parentId.getD "")
             else none))) },
       true) := by
  have hcond : ¬ ((jsTruthyId parentId &&
      (if jsTruthyId parentId then getInstance st.instances (parentId.getD "")
       else none).isNone) = true) := by
    simp only [Bool.and_eq_true, Option.isNone_iff_eq_none]
    exact hok
  simp only [setParent, hchild]
  rw [if_neg hcond]

theorem setParent_fail_parent {st : AppState} {childId : String} {parentId : Option String}
    {child : Instance} (hchild : getInstance st.instances childId = some child)
    (ht : jsTruthyId parentId = true)
    (hp : getInstance st.instances (parentId.getD "") = none) :
    setParent st childId parentId = (st, false) := by
  have hcond : (jsTruthyId parentId &&
      (if jsTruthyId parentId then getInstance st.instances (parentId.getD "")
       else none).isNone) = true := by
    rw [ht]
    simp [hp]
  simp only [setParent, hchild]
  rw [if_pos hcond]

theorem no_own_ancestor_updW {insts : List Instance}
    (h : ∀ e ∈ insts, ¬ isOwnAncestor insts e) :
    ∀ e ∈ updateWorldTransforms insts,
      ¬ isOwnAncestor (updateWorldTransforms insts) e := by
  intro e3 he3 hown
  have hsk := updW_map_skel insts
  obtain ⟨e2, he2, hske⟩ := mem_of_map_eq hsk he3
  have hlen : (updateWorldTransforms insts).length = insts.length := by
    have := congrArg List.length hsk
    simpa using this
  have hanc := ancestorIds_skel hsk (updateWorldTransforms insts).length e3 e2 hske.symm
  have hid : e3.id = e2.id := (skel_fields hske.symm).1
  unfold isOwnAncestor at hown
  rw [hanc, hlen, hid] at hown
  exact h e2 he2 hown

theorem jsTruthyId_true {o : Option String} (h : jsTruthyId o = true) :
    ∃ s, o = some s ∧ s ≠ "" := by
  cases o with
  | none => simp [jsTruthyId] at h
  | some s =>
    refine ⟨s, rfl, ?_⟩
    simpa [jsTruthyId] using h

theorem jsTruthyId_false {o : Option String} (h : jsTruthyId o = false) :
    o = none ∨ o = some "" := by
  cases o with
  | none => exact Or.inl rfl
  | some s =>
    right
    have hs : s = "" := by simpa [jsTruthyId] using h
    rw [hs]

theorem setParentInsts_rooted {insts : List Instance} {childId : String}
    {parentId : Option String} {child : Instance} {parent? : Option Instance}
    (hnd : (insts.map Instance.id).Nodup)
    (hrooted : ∀ e ∈ insts, ∃ l, chainList insts insts.length e = some l)
    (hne : ∀ e ∈ insts, e.id ≠ "")
    (hchild : getInstance insts childId = some child)
    (hpq : parent? =
      if jsTruthyId parentId then getInstance insts (parentId.getD "") else none)
    (hok : ¬ (jsTruthyId parentId = true ∧ parent? = none))
    (hguard : ∀ ps P, parentId = some ps → getInstance insts ps = some P →
      ∀ lP, chainList insts insts.length P = some lP → ∀ z ∈ lP, z.id ≠ childId) :
    ∀ e ∈ setParentInsts insts childId parentId child parent?,
      ∃ f l, chainList (setParentInsts insts childId parentId child parent?) f e
        = some l := by
  obtain ⟨hids, hcorr, child3, hc3, hc3id, hc3par, hc3w, hc3loc⟩ :=
    setParentInsts_spec parent? hchild
  have hnd1 : ((setParentInsts insts childId parentId child parent?).map
      Instance.id).Nodup := by
    rw [hids]
    exact hnd
  have hcorr' : ∀ q, q ≠ childId →
      (getInstance insts q).map chainKey =
      (getInstance (setParentInsts insts childId parentId child parent?) q).map chainKey :=
    fun q hq => (hcorr q hq).symm
  have hcid0 : (getInstance insts childId).isSome = true := by
    rw [hchild]
    rfl
  have hnes1 : ∀ e ∈ setParentInsts insts childId parentId child parent?, e.id ≠ "" := by
    intro e he
    have hmem : e.id ∈ insts.map Instance.id := by
      rw [← hids]
      exact List.mem_map_of_mem Instance.id he
    obtain ⟨e0, he0, hid0⟩ := List.mem_map.mp hmem
    rw [← hid0]
    exact hne e0 he0
  have hchildchain : ∃ f l,
      chainList (setParentInsts insts childId parentId child parent?) f child3
        = some l := by
    cases hpt : jsTruthyId parentId with
    | false =>
      rcases jsTruthyId_false hpt with hpid | hpid
      · exact ⟨1, [child3], by simp [chainList, hc3par.trans hpid]⟩
      · have hcp : child3.parentId = some "" := hc3par.trans hpid
        have hg1 : getInstance (setParentInsts insts childId parentId child parent?) ""
            = none := getInstance_none_of_ids (fun e he => hnes1 e he)
        exact ⟨1, [child3], by simp [chainList, hcp, hg1]⟩
    | true =>
      obtain ⟨ps, hpid, hps0⟩ := jsTruthyId_true hpt
      have hpq2 : parent? = getInstance insts ps := by
        rw [hpq, if_pos hpt, hpid]
        rfl
      cases hg : getInstance insts ps with
      | none => exact absurd ⟨hpt, hpq2.trans hg⟩ hok
      | some P =>
        have hPmem : P ∈ insts := getInstance_mem hg
        obtain ⟨lP, hlP⟩ := hrooted P hPmem
        have havoid : ∀ z ∈ lP, z.id ≠ childId := hguard ps P hpid hg lP hlP
        have hpsne : ps ≠ childId := by
          obtain ⟨t, hteq⟩ := chainList_head hlP
          have hPhead : P ∈ lP := by
            rw [hteq]
            exact List.mem_cons_self P t
          have hPid : P.id = ps := getInstance_id hg
          intro hcontra
          exact havoid P hPhead (by rw [hPid, hcontra])
        have hc12 := hcorr' ps hpsne
        rw [hg] at hc12
        cases hgs1 : getInstance (setParentInsts insts childId parentId child parent?)
            ps with
        | none =>
          rw [hgs1] at hc12
          simp at hc12
        | some P1 =>
          rw [hgs1] at hc12
          simp only [Option.map_some', Option.some.injEq] at hc12
          obtain ⟨lP1, hlP1, _⟩ :=
            chainList_transfer hcorr' hcid0 insts.length P P1 lP hlP havoid hc12.symm
          have hmin := chainList_minfuel insts.length hlP1
          have hcp : child3.parentId = some ps := hc3par.trans hpid
          exact ⟨lP1.length + 1, child3 :: lP1, by simp [chainList, hcp, hgs1, hmin]⟩
  intro e he
  have hself := getInstance_self hnd1 he
  by_cases hq : e.id = childId
  · rw [hq, hc3] at hself
    have he3 : child3 = e := by
      injection hself
    obtain ⟨f, l, hl⟩ := hchildchain
    exact ⟨f, l, he3 ▸ hl⟩
  · have hc12 := hcorr' e.id hq
    rw [hself] at hc12
    cases hg0 : getInstance insts e.id with
    | none =>
      rw [hg0] at hc12
      simp at hc12
    | some e0 =>
      rw [hg0] at hc12
      simp only [Option.map_some', Option.some.injEq] at hc12
      have he0 : e0 ∈ insts := getInstance_mem hg0
      obtain ⟨l0, hl0⟩ := hrooted e0 he0
      have hEterm : ∀ E1,
          getInstance (setParentInsts insts childId parentId child parent?) childId
            = some E1 →
          ∃ fE lE, chainList (setParentInsts insts childId parentId child parent?) fE E1
            = some lE := by
        intro E1 hE1
        rw [hc3] at hE1
        have hce : child3 = E1 := by
          injection hE1
        obtain ⟨f, l, hl⟩ := hchildchain
        exact ⟨f, l, hce ▸ hl⟩
      obtain ⟨f1, l1, hl1⟩ :=
        chainList_transfer_term hcorr' hcid0 hEterm insts.length e0 e l0 hl0 hc12.symm
      exact ⟨f1, l1, hl1⟩

theorem updateFirst_lookup_none {s : List Instance} {id q : String}
    (f : Instance → Instance) (hf : ∀ x, (f x).id = x.id)
    (h : getInstance s q = none) : getInstance (updateFirst s id f) q = none := by
  apply getInstance_none_of_ids
  intro e he
  have hmem : e.id ∈ (updateFirst s id f).map Instance.id :=
    List.mem_map_of_mem Instance.id he
  rw [updateFirst_map_id f hf] at hmem
  obtain ⟨e0, he0, hid⟩ := List.mem_map.mp hmem
  have h0 := List.find?_eq_none.mp h e0 he0
  rw [← hid]
  simpa using h0

theorem updateFirst_lookup_desc {s : List Instance} {id q : String}
    (f : Instance → Instance) {e2 : Instance}
    (h : getInstance (updateFirst s id f) q = some e2)
    (hf : ∀ x, (f x).id = x.id) :
    ∃ e, getInstance s q = some e ∧ e2 = (if q = id then f e else e) := by
  by_cases hq : q = id
  · subst hq
    cases hs : getInstance s q with
    | none =>
      rw [updateFirst_lookup_none f hf hs] at h
      cases h
    | some e =>
      rw [updateFirst_lookup_eq f hf hs] at h
      injection h with h2
      exact ⟨e, rfl, by rw [if_pos rfl]; exact h2.symm⟩
  · rw [updateFirst_lookup_ne f hf hq] at h
    exact ⟨e2, h, by rw [if_neg hq]⟩

theorem lookup_none_of_ids_eq {s s' : List Instance}
    (hids : s'.map Instance.id = s.map Instance.id) {q : String}
    (h : getInstance s q = none) : getInstance s' q = none := by
  apply getInstance_none_of_ids
  intro e he
  have hmem : e.id ∈ s'.map Instance.id := List.mem_map_of_mem Instance.id he
  rw [hids] at hmem
  obtain ⟨e0, he0, hid⟩ := List.mem_map.mp hmem
  have h0 := List.find?_eq_none.mp h e0 he0
  rw [← hid]
  simpa using h0

theorem chainList_none_self {insts : List Instance} {e : Instance}
    (hself : e.parentId = some e.id) (hee : getInstance insts e.id = some e) :
    ∀ f, chainList insts f e = none := by
  intro f
  induction f with
  | zero => rfl
  | succ f ih => simp [chainList, hself, hee, ih]

theorem no_self_parent {insts : List Instance}
    (hnd : (insts.map Instance.id).Nodup)
    (hrooted : ∀ e ∈ insts, ∃ l, chainList insts insts.length e = some l) :
    ∀ e ∈ insts, e.parentId ≠ some e.id := by
  intro e he hself
  obtain ⟨l, hl⟩ := hrooted e he
  rw [chainList_none_self hself (getInstance_self hnd he) insts.length] at hl
  cases hl

theorem first_passage {α : Type} (p : α → Prop) {l : List α} :
    ∀ k, (∃ z, l.get? k = some z ∧ p z) →
      ∃ m z, l.get? m = some z ∧ p z ∧
        ∀ j z', j < m → l.get? j = some z' → ¬ p z' := by
  intro k
  induction k using Nat.strong_induction_on with
  | _ k ih =>
    intro hk
    by_cases hearly : ∃ j, j < k ∧ ∃ z, l.get? j = some z ∧ p z
    · obtain ⟨j, hj, hz⟩ := hearly
      exact ih j hj hz
    · obtain ⟨z, hz, hp⟩ := hk
      refine ⟨k, z, hz, hp, ?_⟩
      intro j z' hj hz' hp'
      exact hearly ⟨j, hj, z', hz', hp'⟩

theorem sumLocals_eq_of_keys : ∀ {l1 l0 : List Instance},
    l1.map chainKey = l0.map chainKey → sumLocals l1 = sumLocals l0 := by
  intro l1
  induction l1 with
  | nil =>
    intro l0 h
    cases l0 with
    | nil => rfl
    | cons y ys => simp at h
  | cons x xs ih =>
    intro l0 h
    cases l0 with
    | nil => simp at h
    | cons y ys =>
      simp only [List.map_cons, List.cons.injEq] at h
      have hloc : x.localTransform = y.localTransform := (chainKey_fields h.1).2.2
      rw [sumLocals_cons, sumLocals_cons, hloc, ih h.2]

theorem getLast?_keys {l1 l0 : List Instance}
    (h : l1.map chainKey = l0.map chainKey) :
    (l1.getLast?).map chainKey = (l0.getLast?).map chainKey := by
  rw [← List.getLast?_map, ← List.getLast?_map, h]

theorem wfForwardB_of {insts : List Instance}
    (h : ∀ p ∈ insts, ∀ cid ∈ p.children, ∀ c, getInstance insts cid = some c →
      c.parentId = some p.id) : wfForwardB insts = true := by
  simp only [wfForwardB, List.all_eq_true]
  intro p hp cid hcid
  cases hg : getInstance insts cid with
  | none => simp [hg]
  | some c =>
    simp only [hg, decide_eq_true_eq]
    exact h p hp cid hcid c hg

theorem wfBackwardB_of {insts : List Instance}
    (h : ∀ c ∈ insts, ∀ pid, c.parentId = some pid →
      ∀ p, getInstance insts pid = some p → c.id ∈ p.children) :
    wfBackwardB insts = true := by
  simp only [wfBackwardB, List.all_eq_true]
  intro c hc
  cases hp : c.parentId with
  | none => simp [hp]
  | some pid =>
    cases hg : getInstance insts pid with
    | none => simp [hp, hg]
    | some p =>
      simp only [hp, hg, decide_eq_true_eq]
      exact h c hc pid hp p hg

theorem wfChNodupB_of {insts : List Instance}
    (h : ∀ p ∈ insts, p.children.Nodup) : wfChNodupB insts = true := by
  simp only [wfChNodupB, List.all_eq_true]
  intro p hp
  simpa using h p hp

theorem wfUniqueParentB_of {insts : List Instance}
    (h : ∀ p ∈ insts, ∀ q ∈ insts, ∀ cid, cid ∈ p.children → cid ∈ q.children →
      q = p) : wfUniqueParentB insts = true := by
  simp only [wfUniqueParentB, List.all_eq_true]
  intro p hp cid hcid q hq
  by_cases hmem : cid ∈ q.children
  · simp [hmem, h p hp q hq cid hcid hmem]
  · simp [hmem]

theorem wfB_of {insts : List Instance}
    (h1 : wfForwardB insts = true) (h2 : wfBackwardB insts = true)
    (h3 : wfChNodupB insts = true) (h4 : wfUniqueParentB insts = true) :
    wfB insts = true := by
  simp [wfB, h1, h2, h3, h4]

theorem no_own_ancestor_forest {insts : List Instance}
    (hnd : uniqueIdsB insts = true) (hrooted : rootedAllB insts = true) :
    ∀ e ∈ insts, ¬ isOwnAncestor insts e := by
  intro e he
  obtain ⟨l, hl⟩ := rootedAllB_spec hrooted e he
  exact not_own_ancestor_of_rooted (uniqueIdsB_spec hnd) he hl

/-- C9 (amended).  On a rooted forest with unique nonempty ids,
`setParent(childId, parentId)` preserves the forest invariant — afterwards
no id is its own ancestor — provided the new parent id, whenever it
resolves to an entity `P`, yields an ancestor chain of `P` that never
passes through `childId`: the new parent is neither the child itself nor
one of the child's descendants.  The source performs no cycle check, so
the guard is necessary (reparenting under a descendant is accepted and
creates a cycle, refuting the claim as stated). -/
theorem claim_C9_amended (st : AppState) (childId : String) (parentId : Option String)
    (hnd : uniqueIdsB st.instances = true)
    (hrooted : rootedAllB st.instances = true)
    (hne : idsNonemptyB st.instances = true)
    (hguard : ∀ ps P, parentId = some ps → getInstance st.instances ps = some P →
      ∀ lP, chainList st.instances st.instances.length P = some lP →
      ∀ z ∈ lP, z.id ≠ childId) :
    ∀ e ∈ (setParent st childId parentId).1.instances,
      ¬ isOwnAncestor (setParent st childId parentId).1.instances e := by
  have hbase := no_own_ancestor_forest hnd hrooted
  cases hchild? : getInstance st.instances childId with
  | none =>
    rw [setParent_fail_child hchild?]
    exact hbase
  | some child =>
    by_cases hok : jsTruthyId parentId = true ∧
        (if jsTruthyId parentId then getInstance st.instances (parentId.getD "")
         else none) = none
    · obtain ⟨ht, hp⟩ := hok
      rw [if_pos ht] at hp
      rw [setParent_fail_parent hchild? ht hp]
      exact hbase
    · rw [setParent_success hchild? hok]
      show ∀ e ∈ updateWorldTransforms (setParentInsts st.instances childId parentId
          child (if jsTruthyId parentId then getInstance st.instances (parentId.getD "")
           else none)),
        ¬ isOwnAncestor (updateWorldTransforms (setParentInsts st.instances childId
          parentId child (if jsTruthyId parentId then
            getInstance st.instances (parentId.getD "") else none))) e
      refine no_own_ancestor_updW ?_
      have hterm := setParentInsts_rooted (uniqueIdsB_spec hnd) (rootedAllB_spec hrooted)
        (idsNonemptyB_spec hne) hchild? rfl hok hguard
      have hnd2 : ((setParentInsts st.instances childId parentId child
          (if jsTruthyId parentId then getInstance st.instances (parentId.getD "")
           else none)).map Instance.id).Nodup := by
        rw [(setParentInsts_spec _ hchild?).1]
        exact uniqueIdsB_spec hnd
      intro e he
      obtain ⟨f, l, hl⟩ := hterm e he
      exact not_own_ancestor_of_rooted hnd2 he (chainList_full he hl)

/-- Witness for the amended C9 on the concrete two-root forest:
reparenting `r1` under `r2` keeps every id off its own ancestor list. -/
theorem claim_C9_witness :
    (setParent stW "r1" (some "r2")).2 = true ∧
    ∀ e ∈ (setParent stW "r1" (some "r2")).1.instances,
      ¬ isOwnAncestor (setParent stW "r1" (some "r2")).1.instances e := by
  refine ⟨by decide, ?_⟩
  refine claim_C9_amended stW "r1" (some "r2") (by decide) (by decide) (by decide) ?_
  intro ps P hps hg lP hlP z hz
  have hps' : ps = "r2" := by
    injection hps with h
    exact h.symm
  rw [hps'] at hg
  have hP : P = r2W := by
    rw [show getInstance stW.instances "r2" = some r2W from by decide] at hg
    injection hg with h
    exact h.symm
  subst hP
  have hlP' : lP = [r2W] := by
    rw [show chainList stW.instances stW.instances.length r2W = some [r2W] from
      by decide] at hlP
    injection hlP with h
    exact h.symm
  rw [hlP'] at hz
  have hzr : z = r2W := by simpa using hz
  rw [hzr]
  decide

theorem setParentInsts_desc_none {insts : List Instance} {childId : String}
    {parentId : Option String} {child : Instance}
    (hop : child.parentId ≠ some childId) :
    ∀ q e2, getInstance (setParentInsts insts childId parentId child none) q = some e2 →
    ∃ e, getInstance insts q = some e ∧
      e2.parentId = (if q = childId then parentId else e.parentId) ∧
      e2.children = (if jsTruthyId child.parentId = true ∧ q = child.parentId.getD ""
        then e.children.filter (fun cid => cid ≠ childId) else e.children) := by
  intro q e2 h
  simp only [setParentInsts] at h
  obtain ⟨eb, hb, he2⟩ := updateFirst_lookup_desc _ h (fun x => rfl)
  obtain ⟨ea, ha, heb⟩ := updateFirst_lookup_desc _ hb (fun x => rfl)
  cases hw : jsTruthyId child.parentId with
  | false =>
    have hdet : detachOld insts childId child = insts := by
      simp [detachOld, hw]
    rw [hdet] at ha
    refine ⟨ea, ha, ?_, ?_⟩
    · by_cases hq : q = childId <;> simp [he2, heb, hq]
    · by_cases hq : q = childId <;> simp [he2, heb, hq]
  | true =>
    have hdet : detachOld insts childId child =
        updateFirst insts (child.parentId.getD "")
          (fun op =>
            { op with children := op.children.filter (fun cid => cid ≠ childId) }) := by
      simp [detachOld, hw]
    rw [hdet] at ha
    obtain ⟨e0, h0, hea⟩ := updateFirst_lookup_desc _ ha (fun x => rfl)
    have hone : ¬ (childId = child.parentId.getD "") := by
      intro hcontra
      apply hop
      cases hcp : child.parentId with
      | none =>
        rw [hcp] at hw
        simp [jsTruthyId] at hw
      | some s =>
        rw [hcp] at hcontra
        simp only [Option.getD_some] at hcontra
        rw [hcontra]
    have hone2 : ¬ (child.parentId.getD "" = childId) := fun hh => hone hh.symm
    refine ⟨e0, h0, ?_, ?_⟩
    · by_cases hq : q = childId
      · simp [he2, heb, hea, hq, hone]
      · by_cases hqo : q = child.parentId.getD "" <;>
          simp [he2, heb, hea, hq, hqo, hone2]
    · by_cases hq : q = childId
      · simp [he2, heb, hea, hq, hone, hw]
      · by_cases hqo : q = child.parentId.getD "" <;>
          simp [he2, heb, hea, hq, hqo, hone2, hw]

theorem setParentInsts_desc_some {insts : List Instance} {childId ps : String}
    {child P : Instance}
    (hg : getInstance insts ps = some P)
    (hop : child.parentId ≠ some childId) :
    ∀ q e2, getInstance (setParentInsts insts childId (some ps) child (some P)) q
      = some e2 →
    ∃ e, getInstance insts q = some e ∧
      e2.parentId = (if q = childId then some ps else e.parentId) ∧
      ∃ base, base = (if jsTruthyId child.parentId = true ∧ q = child.parentId.getD ""
          then e.children.filter (fun cid => cid ≠ childId) else e.children) ∧
        e2.children =
          (if q = ps then (if childId ∈ base then base else base ++ [childId])
           else base) := by
  intro q e2 h
  have hPid : P.id = ps := getInstance_id hg
  simp only [setParentInsts] at h
  obtain ⟨ec, hc, he2⟩ := updateFirst_lookup_desc _ h (fun x => rfl)
  obtain ⟨eb, hb, hec⟩ := updateFirst_lookup_desc _ hc
    (fun x => by by_cases hx : childId ∈ x.children <;> simp [hx])
  obtain ⟨ea, ha, heb⟩ := updateFirst_lookup_desc _ hb (fun x => rfl)
  rw [hPid] at hec
  have hfattch : ∀ x : Instance,
      ((fun p => if childId ∈ p.children then p
        else { p with children := p.children ++ [childId] }) x).children
        = (if childId ∈ x.children then x.children else x.children ++ [childId]) :=
    fun x => by by_cases hx : childId ∈ x.children <;> simp [hx]
  have hfattpar : ∀ x : Instance,
      ((fun p => if childId ∈ p.children then p
        else { p with children := p.children ++ [childId] }) x).parentId
        = x.parentId :=
    fun x => by by_cases hx : childId ∈ x.children <;> simp [hx]
  cases hw : jsTruthyId child.parentId with
  | false =>
    have hdet : detachOld insts childId child = insts := by
      simp [detachOld, hw]
    rw [hdet] at ha
    refine ⟨ea, ha, ?_, ?_⟩
    · by_cases hq : q = childId <;> by_cases hqp : q = ps <;>
        simp [he2, hec, heb, hq, hqp, hfattpar] <;> split_ifs <;> simp
    · refine ⟨_, rfl, ?_⟩
      by_cases hq : q = childId <;> by_cases hqp : q = ps <;>
        simp [he2, hec, heb, hq, hqp, hfattch] <;> split_ifs <;> simp
  | true =>
    have hdet : detachOld insts childId child =
        updateFirst insts (child.parentId.getD "")
          (fun op =>
            { op with children := op.children.filter (fun cid => cid ≠ childId) }) := by
      simp [detachOld, hw]
    rw [hdet] at ha
    obtain ⟨e0, h0, hea⟩ := updateFirst_lookup_desc _ ha (fun x => rfl)
    have hone : ¬ (childId = child.parentId.getD "") := by
      intro hcontra
      apply hop
      cases hcp : child.parentId with
      | none =>
        rw [hcp] at hw
        simp [jsTruthyId] at hw
      | some s =>
        rw [hcp] at hcontra
        simp only [Option.getD_some] at hcontra
        rw [hcontra]
    have hone2 : ¬ (child.parentId.getD "" = childId) := fun hh => hone hh.symm
    refine ⟨e0, h0, ?_, ?_⟩
    · by_cases hq : q = childId
      · by_cases hqp : q = ps <;>
          simp [he2, hec, heb, hea, hq, hqp, hone, hfattpar] <;> split_ifs <;> simp
      · by_cases hqp : q = ps <;> by_cases hqo : q = child.parentId.getD "" <;>
          simp [he2, hec, heb, hea, hq, hqp, hqo, hone2, hfattpar] <;>
          split_ifs <;> simp
    · refine ⟨_, rfl, ?_⟩
      by_cases hq : q = childId
      · by_cases hqp : q = ps <;>
          simp [he2, hec, heb, hea, hq, hqp, hone, hfattch] <;> split_ifs <;> simp
      · by_cases hqp : q = ps <;> by_cases hqo : q = child.parentId.getD "" <;>
          simp [he2, hec, heb, hea, hq, hqp, hqo, hone2, hfattch] <;>
          split_ifs <;> simp

theorem holder_old {insts : List Instance} {childId : String} {child : Instance}
    (hwf : wfB insts = true) (hne : ∀ e ∈ insts, e.id ≠ "")
    (hchild : getInstance insts childId = some child) :
    ∀ e ∈ insts, childId ∈ e.children →
      jsTruthyId child.parentId = true ∧ child.parentId.getD "" = e.id := by
  intro e he hcid
  have hpar : child.parentId = some e.id := wf_forward hwf he hcid hchild
  constructor
  · rw [hpar]
    simp [jsTruthyId, hne e he]
  · rw [hpar]
    rfl

theorem setParentInsts_wf_none {insts : List Instance} {childId : String}
    {parentId : Option String} {child : Instance}
    (hnd : (insts.map Instance.id).Nodup)
    (hwf : wfB insts = true)
    (hne : ∀ e ∈ insts, e.id ≠ "")
    (hchild : getInstance insts childId = some child)
    (hop : child.parentId ≠ some childId)
    (hfalsy : parentId = none ∨ parentId = some "") :
    wfB (setParentInsts insts childId parentId child none) = true := by
  have hids : (setParentInsts insts childId parentId child none).map Instance.id
      = insts.map Instance.id := (setParentInsts_spec none hchild).1
  have hnd2 : ((setParentInsts insts childId parentId child none).map
      Instance.id).Nodup := by
    rw [hids]
    exact hnd
  have hself2 : ∀ e2 ∈ setParentInsts insts childId parentId child none,
      getInstance (setParentInsts insts childId parentId child none) e2.id = some e2 :=
    fun e2 he2 => getInstance_self hnd2 he2
  have hne2 : ∀ e2 ∈ setParentInsts insts childId parentId child none, e2.id ≠ "" := by
    intro e2 he2
    have hmem : e2.id ∈ insts.map Instance.id := by
      rw [← hids]
      exact List.mem_map_of_mem Instance.id he2
    obtain ⟨e0, he0, hid0⟩ := List.mem_map.mp hmem
    rw [← hid0]
    exact hne e0 he0
  have desc : ∀ q e2,
      getInstance (setParentInsts insts childId parentId child none) q = some e2 →
      ∃ e, getInstance insts q = some e ∧
        e2.parentId = (if q = childId then parentId else e.parentId) ∧
        e2.children = (if jsTruthyId child.parentId = true ∧
            q = child.parentId.getD ""
          then e.children.filter (fun cid => cid ≠ childId) else e.children) :=
    setParentInsts_desc_none hop
  have hnochild : ∀ r2 ∈ setParentInsts insts childId parentId child none,
      childId ∉ r2.children := by
    intro r2 hr2 hmem
    obtain ⟨e, he, _, hch⟩ := desc r2.id r2 (hself2 r2 hr2)
    rw [hch] at hmem
    by_cases hcond : jsTruthyId child.parentId = true ∧
        r2.id = child.parentId.getD ""
    · rw [if_pos hcond] at hmem
      simp [List.mem_filter] at hmem
    · rw [if_neg hcond] at hmem
      obtain ⟨hw', hgd⟩ := holder_old hwf hne hchild e (getInstance_mem he) hmem
      exact hcond ⟨hw', by rw [hgd, getInstance_id he]⟩
  have hsub : ∀ r2 ∈ setParentInsts insts childId parentId child none,
      ∃ e, getInstance insts r2.id = some e ∧ r2.children ⊆ e.children ∧
        (∀ x ∈ e.children, x ≠ childId → x ∈ r2.children) ∧
        r2.children.Nodup := by
    intro r2 hr2
    obtain ⟨e, he, _, hch⟩ := desc r2.id r2 (hself2 r2 hr2)
    refine ⟨e, he, ?_, ?_, ?_⟩
    · intro x hx
      rw [hch] at hx
      by_cases hcond : jsTruthyId child.parentId = true ∧
          r2.id = child.parentId.getD ""
      · rw [if_pos hcond] at hx
        exact (List.mem_filter.mp hx).1
      · rw [if_neg hcond] at hx
        exact hx
    · intro x hx hxne
      rw [hch]
      by_cases hcond : jsTruthyId child.parentId = true ∧
          r2.id = child.parentId.getD ""
      · rw [if_pos hcond]
        simp [List.mem_filter, hx, hxne]
      · rw [if_neg hcond]
        exact hx
    · rw [hch]
      have hen := wf_chNodup hwf (getInstance_mem he)
      by_cases hcond : jsTruthyId child.parentId = true ∧
          r2.id = child.parentId.getD ""
      · rw [if_pos hcond]
        exact hen.filter _
      · rw [if_neg hcond]
        exact hen
  refine wfB_of ?_ ?_ ?_ ?_
  · refine wfForwardB_of ?_
    intro p2 hp2 cid hcid c2 hc2
    by_cases hcc : cid = childId
    · exact absurd (hcc ▸ hcid) (hnochild p2 hp2)
    · obtain ⟨e, he, _, _⟩ := desc p2.id p2 (hself2 p2 hp2)
      obtain ⟨e', he', hsubp, _, _⟩ := hsub p2 hp2
      have hee : e' = e := by
        rw [he] at he'
        injection he' with h
        exact h.symm
      obtain ⟨c, hcor, hcpar, _⟩ := desc cid c2 hc2
      have hcidmem : cid ∈ e.children := hee ▸ hsubp hcid
      have hfw : c.parentId = some e.id :=
        wf_forward hwf (getInstance_mem he) hcidmem hcor
      rw [hcpar, if_neg hcc, hfw, getInstance_id he]
  · refine wfBackwardB_of ?_
    intro c2 hc2 pid hpid p2 hp2
    obtain ⟨c, hcor, hcpar, _⟩ := desc c2.id c2 (hself2 c2 hc2)
    by_cases hq : c2.id = childId
    · rw [hcpar, if_pos hq] at hpid
      exfalso
      rcases hfalsy with hf | hf
      · rw [hf] at hpid
        cases hpid
      · rw [hf] at hpid
        injection hpid with hpe
        have hp2id : p2.id = pid := getInstance_id hp2
        exact hne2 p2 (getInstance_mem hp2) (by rw [hp2id, ← hpe])
    · rw [hcpar, if_neg hq] at hpid
      obtain ⟨p, hpor, _, _⟩ := desc pid p2 hp2
      obtain ⟨p', hpor', _, hback, _⟩ := hsub p2 (getInstance_mem hp2)
      have hpid2 : p2.id = pid := getInstance_id hp2
      have hpp : p' = p := by
        rw [hpid2] at hpor'
        rw [hpor] at hpor'
        injection hpor' with h
        exact h.symm
      have hbw : c.id ∈ p.children :=
        wf_backward hwf (getInstance_mem hcor) hpid hpor
      have hcid2 : c.id = c2.id := getInstance_id hcor
      refine hback c2.id ?_ hq
      rw [hpp, ← hcid2]
      exact hbw
  · refine wfChNodupB_of ?_
    intro p2 hp2
    obtain ⟨_, _, _, hnodup⟩ := (hsub p2 hp2).choose_spec
    exact hnodup
  · refine wfUniqueParentB_of ?_
    intro p2 hp2 q2 hq2 cid hcp hcq
    have hccne : cid ≠ childId := by
      intro hcc
      exact hnochild p2 hp2 (hcc ▸ hcp)
    obtain ⟨ep, hep, hsp, _, _⟩ := hsub p2 hp2
    obtain ⟨eq', heq, hsq, _, _⟩ := hsub q2 hq2
    have huniq : eq' = ep :=
      wf_uniqueParent hwf (getInstance_mem hep) (getInstance_mem heq)
        (hsp hcp) (hsq hcq)
    have hqid : q2.id = p2.id := by
      rw [← getInstance_id heq, ← getInstance_id hep, huniq]
    have h1 := hself2 q2 hq2
    rw [hqid, hself2 p2 hp2] at h1
    injection h1 with h2
    exact h2.symm

theorem setParentInsts_wf_some {insts : List Instance} {childId ps : String}
    {child P : Instance}
    (hnd : (insts.map Instance.id).Nodup)
    (hwf : wfB insts = true)
    (hne : ∀ e ∈ insts, e.id ≠ "")
    (hchild : getInstance insts childId = some child)
    (hg : getInstance insts ps = some P)
    (hop : child.parentId ≠ some childId) :
    wfB (setParentInsts insts childId (some ps) child (some P)) = true := by
  have hids : (setParentInsts insts childId (some ps) child (some P)).map Instance.id
      = insts.map Instance.id := (setParentInsts_spec (some P) hchild).1
  have hnd2 : ((setParentInsts insts childId (some ps) child (some P)).map
      Instance.id).Nodup := by
    rw [hids]
    exact hnd
  have hself2 : ∀ e2 ∈ setParentInsts insts childId (some ps) child (some P),
      getInstance (setParentInsts insts childId (some ps) child (some P)) e2.id
        = some e2 :=
    fun e2 he2 => getInstance_self hnd2 he2
  have desc := setParentInsts_desc_some hg hop
  have hsub : ∀ r2 ∈ setParentInsts insts childId (some ps) child (some P),
      ∃ e, getInstance insts r2.id = some e ∧
        (∀ x ∈ r2.children, x ≠ childId → x ∈ e.children) ∧
        (∀ x ∈ e.children, x ≠ childId → x ∈ r2.children) ∧
        (childId ∈ r2.children → r2.id = ps) ∧
        (r2.id = ps → childId ∈ r2.children) ∧
        r2.children.Nodup := by
    intro r2 hr2
    obtain ⟨e, he, _, base, hbase, hch⟩ := desc r2.id r2 (hself2 r2 hr2)
    have hbase_sub : ∀ x ∈ base, x ∈ e.children := by
      intro x hx
      rw [hbase] at hx
      by_cases hcond : jsTruthyId child.parentId = true ∧
          r2.id = child.parentId.getD ""
      · rw [if_pos hcond] at hx
        exact (List.mem_filter.mp hx).1
      · rw [if_neg hcond] at hx
        exact hx
    have hbase_keep : ∀ x ∈ e.children, x ≠ childId → x ∈ base := by
      intro x hx hxne
      rw [hbase]
      by_cases hcond : jsTruthyId child.parentId = true ∧
          r2.id = child.parentId.getD ""
      · rw [if_pos hcond]
        simp [List.mem_filter, hx, hxne]
      · rw [if_neg hcond]
        exact hx
    have hbase_noc : childId ∉ base := by
      intro hmem
      have hec : childId ∈ e.children := hbase_sub childId hmem
      obtain ⟨hw', hgd⟩ := holder_old hwf hne hchild e (getInstance_mem he) hec
      have hcond : jsTruthyId child.parentId = true ∧
          r2.id = child.parentId.getD "" :=
        ⟨hw', by rw [hgd, getInstance_id he]⟩
      rw [hbase, if_pos hcond] at hmem
      simp [List.mem_filter] at hmem
    have hbase_nd : base.Nodup := by
      rw [hbase]
      have hen := wf_chNodup hwf (getInstance_mem he)
      by_cases hcond : jsTruthyId child.parentId = true ∧
          r2.id = child.parentId.getD ""
      · rw [if_pos hcond]
        exact hen.filter _
      · rw [if_neg hcond]
        exact hen
    have hch2 : r2.children = (if r2.id = ps then base ++ [childId] else base) := by
      rw [hch, if_neg hbase_noc]
    refine ⟨e, he, ?_, ?_, ?_, ?_, ?_⟩
    · intro x hx hxne
      rw [hch2] at hx
      by_cases hps : r2.id = ps
      · rw [if_pos hps] at hx
        rcases List.mem_append.mp hx with hx1 | hx1
        · exact hbase_sub x hx1
        · simp at hx1
          exact absurd hx1 hxne
      · rw [if_neg hps] at hx
        exact hbase_sub x hx
    · intro x hx hxne
      rw [hch2]
      by_cases hps : r2.id = ps
      · rw [if_pos hps]
        exact List.mem_append.mpr (Or.inl (hbase_keep x hx hxne))
      · rw [if_neg hps]
        exact hbase_keep x hx hxne
    · intro hmem
      rw [hch2] at hmem
      by_cases hps : r2.id = ps
      · exact hps
      · rw [if_neg hps] at hmem
        exact absurd hmem hbase_noc
    · intro hps
      rw [hch2, if_pos hps]
      simp
    · rw [hch2]
      by_cases hps : r2.id = ps
      · rw [if_pos hps]
        simp [List.nodup_append, hbase_nd, hbase_noc]
      · rw [if_neg hps]
        exact hbase_nd
  refine wfB_of ?_ ?_ ?_ ?_
  · refine wfForwardB_of ?_
    intro p2 hp2 cid hcid c2 hc2
    obtain ⟨ep, hep, hsubp, _, hholds, _, _⟩ := hsub p2 hp2
    obtain ⟨c, hcor, hcpar, _, _, _⟩ := desc cid c2 hc2
    by_cases hcc : cid = childId
    · have hps : p2.id = ps := hholds (hcc ▸ hcid)
      rw [hcpar, if_pos hcc, hps]
    · have hcidmem : cid ∈ ep.children := hsubp cid hcid hcc
      have hfw : c.parentId = some ep.id :=
        wf_forward hwf (getInstance_mem hep) hcidmem hcor
      rw [hcpar, if_neg hcc, hfw, getInstance_id hep]
  · refine wfBackwardB_of ?_
    intro c2 hc2 pid hpid p2 hp2
    obtain ⟨c, hcor, hcpar, _, _, _⟩ := desc c2.id c2 (hself2 c2 hc2)
    by_cases hq : c2.id = childId
    · rw [hcpar, if_pos hq] at hpid
      injection hpid with hpe
      obtain ⟨_, _, _, _, _, hpsh, _⟩ := hsub p2 (getInstance_mem hp2)
      have hp2id : p2.id = pid := getInstance_id hp2
      rw [hq]
      exact hpsh (by rw [hp2id, ← hpe])
    · rw [hcpar, if_neg hq] at hpid
      obtain ⟨p, hpor, _, _, _, _⟩ := desc pid p2 hp2
      obtain ⟨p', hpor', _, hback, _, _, _⟩ := hsub p2 (getInstance_mem hp2)
      have hpid2 : p2.id = pid := getInstance_id hp2
      have hpp : p' = p := by
        rw [hpid2] at hpor'
        rw [hpor] at hpor'
        injection hpor' with h
        exact h.symm
      have hbw : c.id ∈ p.children :=
        wf_backward hwf (getInstance_mem hcor) hpid hpor
      have hcid2 : c.id = c2.id := getInstance_id hcor
      refine hback c2.id ?_ hq
      rw [hpp, ← hcid2]
      exact hbw
  · refine wfChNodupB_of ?_
    intro p2 hp2
    obtain ⟨_, _, _, _, _, hnodup⟩ := (hsub p2 hp2).choose_spec
    exact hnodup
  · refine wfUniqueParentB_of ?_
    intro p2 hp2 q2 hq2 cid hcp hcq
    obtain ⟨ep, hep, hsp, _, hpsp, _, _⟩ := hsub p2 hp2
    obtain ⟨eq', heq, hsq, _, hpsq, _, _⟩ := hsub q2 hq2
    have hqid : q2.id = p2.id := by
      by_cases hcc : cid = childId
      · rw [hpsq (hcc ▸ hcq), hpsp (hcc ▸ hcp)]
      · have huniq : eq' = ep :=
          wf_uniqueParent hwf (getInstance_mem hep) (getInstance_mem heq)
            (hsp cid hcp hcc) (hsq cid hcq hcc)
        rw [← getInstance_id heq, ← getInstance_id hep, huniq]
    have h1 := hself2 q2 hq2
    rw [hqid, hself2 p2 hp2] at h1
    injection h1 with h2
    exact h2.symm

theorem sub_add_cancel_tr (u v : Transform) :
    (⟨u.x - v.x + v.x, u.y - v.y + v.y⟩ : Transform) = u := by
  cases u with
  | mk x y =>
    cases v with
    | mk a b =>
      simp only [Transform.mk.injEq]
      omega

theorem setParent_world_none {insts : List Instance} {eid : String} {E : Instance}
    (hnd : uniqueIdsB insts = true) (hwf : wfB insts = true)
    (hrooted : rootedAllB insts = true) (hne : idsNonemptyB insts = true)
    (hE : getInstance insts eid = some E) :
    ∃ E', getInstance (updateWorldTransforms
        (setParentInsts insts eid none E none)) eid = some E' ∧
      E'.worldTransform = E.worldTransform := by
  have hnd' := uniqueIdsB_spec hnd
  have hne' := idsNonemptyB_spec hne
  have hrooted' := rootedAllB_spec hrooted
  have hop : E.parentId ≠ some eid := by
    rw [← getInstance_id hE]
    exact no_self_parent hnd' hrooted' E (getInstance_mem hE)
  have hspec :
      (setParentInsts insts eid none E none).map Instance.id = insts.map Instance.id ∧
      (∀ q, q ≠ eid →
        (getInstance (setParentInsts insts eid none E none) q).map chainKey
          = (getInstance insts q).map chainKey) ∧
      ∃ child3, getInstance (setParentInsts insts eid none E none) eid = some child3 ∧
        child3.id = E.id ∧ child3.parentId = none ∧
        child3.worldTransform = E.worldTransform ∧
        child3.localTransform = E.worldTransform :=
    setParentInsts_spec none hE
  obtain ⟨hids, hcorr, child3, hc3, hc3id, hc3par, hc3w, hc3loc⟩ := hspec
  have hwf2 : wfB (setParentInsts insts eid none E none) = true :=
    setParentInsts_wf_none hnd' hwf hne' hE hop (Or.inl rfl)
  have hnd2 : ((setParentInsts insts eid none E none).map Instance.id).Nodup := by
    rw [hids]
    exact hnd'
  have hch1 : chainList (setParentInsts insts eid none E none) 1 child3
      = some [child3] := by
    simp [chainList, hc3par]
  have hch : chainList (setParentInsts insts eid none E none)
      (setParentInsts insts eid none E none).length child3 = some [child3] :=
    chainList_full (getInstance_mem hc3) hch1
  have hee : getInstance (setParentInsts insts eid none E none) child3.id
      = some child3 := by
    rw [hc3id, getInstance_id hE]
    exact hc3
  have hlast : ([child3] : List Instance).getLast? = some child3 := rfl
  have hw := propagate_rooted hnd2 hwf2 hee hch hlast hc3par
  have hsum : sumLocals [child3] = E.worldTransform := by
    cases hEw : E.worldTransform with
    | mk x y => simp [sumLocals, hc3loc, hEw]
  refine ⟨{ child3 with worldTransform := sumLocals [child3] }, ?_, ?_⟩
  · nth_rewrite 2 [← getInstance_id hE]
    rw [← hc3id]
    exact hw
  · simpa using hsum

theorem setParent_world_some {insts : List Instance} {eid ps : String} {E P : Instance}
    (hnd : uniqueIdsB insts = true) (hwf : wfB insts = true)
    (hrooted : rootedAllB insts = true) (hfresh : freshB insts = true)
    (hne : idsNonemptyB insts = true)
    (hE : getInstance insts eid = some E)
    (hg : getInstance insts ps = some P) :
    ∃ E', getInstance (updateWorldTransforms
        (setParentInsts insts eid (some ps) E (some P))) eid = some E' ∧
      E'.worldTransform = E.worldTransform := by
  have hnd' := uniqueIdsB_spec hnd
  have hne' := idsNonemptyB_spec hne
  have hrooted' := rootedAllB_spec hrooted
  have hop : E.parentId ≠ some eid := by
    rw [← getInstance_id hE]
    exact no_self_parent hnd' hrooted' E (getInstance_mem hE)
  have hspec :
      (setParentInsts insts eid (some ps) E (some P)).map Instance.id
        = insts.map Instance.id ∧
      (∀ q, q ≠ eid →
        (getInstance (setParentInsts insts eid (some ps) E (some P)) q).map chainKey
          = (getInstance insts q).map chainKey) ∧
      ∃ child3, getInstance (setParentInsts insts eid (some ps) E (some P)) eid
          = some child3 ∧
        child3.id = E.id ∧ child3.parentId = some ps ∧
        child3.worldTransform = E.worldTransform ∧
        child3.localTransform = (⟨E.worldTransform.x - P.worldTransform.x,
          E.worldTransform.y - P.worldTransform.y⟩ : Transform) :=
    setParentInsts_spec (some P) hE
  obtain ⟨hids, hcorr, child3, hc3, hc3id, hc3par, hc3w, hc3loc⟩ := hspec
  have hwf2 : wfB (setParentInsts insts eid (some ps) E (some P)) = true :=
    setParentInsts_wf_some hnd' hwf hne' hE hg hop
  have hnd2 : ((setParentInsts insts eid (some ps) E (some P)).map
      Instance.id).Nodup := by
    rw [hids]
    exact hnd'
  have hcorr' : ∀ q, q ≠ eid →
      (getInstance insts q).map chainKey =
      (getInstance (setParentInsts insts eid (some ps) E (some P)) q).map chainKey :=
    fun q hq => (hcorr q hq).symm
  have hcid0 : (getInstance insts eid).isSome = true := by
    rw [hE]
    rfl
  have hee : getInstance (setParentInsts insts eid (some ps) E (some P)) child3.id
      = some child3 := by
    rw [hc3id, getInstance_id hE]
    exact hc3
  obtain ⟨lP, hlP⟩ := hrooted' P (getInstance_mem hg)
  have hPfresh : P.worldTransform = sumLocals lP :=
    freshB_spec hfresh P (getInstance_mem hg) lP hlP
  have hPid : P.id = ps := getInstance_id hg
  by_cases hcyc : ∃ k z, lP.get? k = some z ∧ z.id = eid
  · obtain ⟨k, z, hk, hz⟩ := hcyc
    obtain ⟨m, z0, hm, hz0, hfirst⟩ :=
      first_passage (fun w => w.id = eid) k ⟨z, hk, hz⟩
    have hstale : ∀ l, chainList (setParentInsts insts eid (some ps) E (some P))
        (setParentInsts insts eid (some ps) E (some P)).length child3 = some l →
        ∀ r, l.getLast? = some r → r.parentId ≠ none := by
      intro l1 hl1 r hr hrnone
      have hnodup1 := chainList_nodup _ hl1
      by_cases hpse : ps = eid
      · have hc3par2 : child3.parentId = some eid := by rw [hc3par, hpse]
        cases hN : (setParentInsts insts eid (some ps) E (some P)).length with
        | zero =>
          rw [hN] at hl1
          simp [chainList] at hl1
        | succ n =>
          rw [hN] at hl1
          simp only [chainList, hc3par2, hc3] at hl1
          cases hrest : chainList (setParentInsts insts eid (some ps) E (some P))
              n child3 with
          | none =>
            rw [hrest] at hl1
            simp at hl1
          | some rest =>
            rw [hrest] at hl1
            simp only [Option.map_some', Option.some.injEq] at hl1
            obtain ⟨t, hteq⟩ := chainList_head hrest
            rw [← hl1, hteq] at hnodup1
            exact (List.nodup_cons.mp hnodup1).1 (List.mem_cons_self child3 t)
      · have hc12 := hcorr' ps hpse
        rw [hg] at hc12
        cases hgs1 : getInstance (setParentInsts insts eid (some ps) E (some P))
            ps with
        | none =>
          rw [hgs1] at hc12
          simp at hc12
        | some P1 =>
          rw [hgs1] at hc12
          simp only [Option.map_some', Option.some.injEq] at hc12
          cases hN : (setParentInsts insts eid (some ps) E (some P)).length with
          | zero =>
            rw [hN] at hl1
            simp [chainList] at hl1
          | succ n =>
            rw [hN] at hl1
            simp only [chainList, hc3par, hgs1] at hl1
            cases hrest : chainList (setParentInsts insts eid (some ps) E (some P))
                n P1 with
            | none =>
              rw [hrest] at hl1
              simp at hl1
            | some rest =>
              rw [hrest] at hl1
              simp only [Option.map_some', Option.some.injEq] at hl1
              have hP0ne : P.id ≠ eid := by
                rw [hPid]
                exact hpse
              have hpass := chain_through_cid hcorr' hc3 m insts.length P P1 lP z0
                hlP hm hz0 hfirst hc12.symm hP0ne n rest hrest
              have hmem : child3 ∈ rest := List.get?_mem hpass
              rw [← hl1] at hnodup1
              exact (List.nodup_cons.mp hnodup1).1 hmem
    have hw := propagate_untouched hnd2 hwf2 hee hstale
    refine ⟨child3, ?_, hc3w⟩
    nth_rewrite 2 [← getInstance_id hE]
    rw [← hc3id]
    exact hw
  · have havoid : ∀ z ∈ lP, z.id ≠ eid := by
      intro z hz hzid
      obtain ⟨k, hk⟩ := List.get?_of_mem hz
      exact hcyc ⟨k, z, hk, hzid⟩
    have hpsne : ps ≠ eid := by
      obtain ⟨t, hteq⟩ := chainList_head hlP
      have hPhead : P ∈ lP := by
        rw [hteq]
        exact List.mem_cons_self P t
      intro hcontra
      exact havoid P hPhead (by rw [hPid, hcontra])
    have hc12 := hcorr' ps hpsne
    rw [hg] at hc12
    cases hgs1 : getInstance (setParentInsts insts eid (some ps) E (some P)) ps with
    | none =>
      rw [hgs1] at hc12
      simp at hc12
    | some P1 =>
      rw [hgs1] at hc12
      simp only [Option.map_some', Option.some.injEq] at hc12
      obtain ⟨lP1, hlP1, hkeys⟩ :=
        chainList_transfer hcorr' hcid0 insts.length P P1 lP hlP havoid hc12.symm
      have hmin := chainList_minfuel insts.length hlP1
      have hchild_chain : chainList (setParentInsts insts eid (some ps) E (some P))
          (lP1.length + 1) child3 = some (child3 :: lP1) := by
        simp [chainList, hc3par, hgs1, hmin]
      have hfull : chainList (setParentInsts insts eid (some ps) E (some P))
          (setParentInsts insts eid (some ps) E (some P)).length child3
          = some (child3 :: lP1) :=
        chainList_full (getInstance_mem hc3) hchild_chain
      cases hlast : lP.getLast? with
      | none =>
        exfalso
        obtain ⟨t, hteq⟩ := chainList_head hlP
        rw [List.getLast?_eq_get?] at hlast
        have hlen := List.get?_eq_none.mp hlast
        have : 0 < lP.length := by
          rw [hteq]
          simp
        omega
      | some rT =>
        have hlast1 := getLast?_keys hkeys
        rw [hlast] at hlast1
        cases hlast1' : lP1.getLast? with
        | none =>
          rw [hlast1'] at hlast1
          simp at hlast1
        | some rT1 =>
          rw [hlast1'] at hlast1
          simp only [Option.map_some', Option.some.injEq] at hlast1
          have hlastc : (child3 :: lP1).getLast? = some rT1 := by
            cases hlp1 : lP1 with
            | nil =>
              rw [hlp1] at hlast1'
              cases hlast1'
            | cons b bs =>
              rw [hlp1] at hlast1'
              rw [List.getLast?_cons_cons]
              exact hlast1'
          rcases chainList_last insts.length hlP hlast with hnone | ⟨pid', hpid', _⟩
          · have hrT1par : rT1.parentId = none := by
              rw [(chainKey_fields hlast1).2.1]
              exact hnone
            have hw := propagate_rooted hnd2 hwf2 hee hfull hlastc hrT1par
            have hsum : sumLocals (child3 :: lP1) = E.worldTransform := by
              rw [sumLocals_cons, sumLocals_eq_of_keys hkeys, ← hPfresh, hc3loc]
              exact sub_add_cancel_tr E.worldTransform P.worldTransform
            refine ⟨{ child3 with
              worldTransform := sumLocals (child3 :: lP1) }, ?_, ?_⟩
            · nth_rewrite 2 [← getInstance_id hE]
              rw [← hc3id]
              exact hw
            · simpa using hsum
          · have hrT1par : rT1.parentId = some pid' := by
              rw [(chainKey_fields hlast1).2.1]
              exact hpid'
            have hstale : ∀ l,
                chainList (setParentInsts insts eid (some ps) E (some P))
                  (setParentInsts insts eid (some ps) E (some P)).length child3
                  = some l →
                ∀ r, l.getLast? = some r → r.parentId ≠ none := by
              intro l hl r hr
              rw [hfull] at hl
              injection hl with hleq
              rw [← hleq] at hr
              rw [hlastc] at hr
              injection hr with hreq
              rw [← hreq, hrT1par]
              simp
            have hw := propagate_untouched hnd2 hwf2 hee hstale
            refine ⟨child3, ?_, hc3w⟩
            nth_rewrite 2 [← getInstance_id hE]
            rw [← hc3id]
            exact hw

/-- C3.  On a forest with unique nonempty ids, consistent parent/child
links, terminating ancestor chains and fresh world-transform caches,
`setParent(E, P)` with a resolvable new parent (or none) succeeds, and
after the transform propagation it triggers E's world transform equals its
recorded value exactly, regardless of P's own position.  This holds even
for the degenerate cycle-creating reparents (P the entity itself or one of
its descendants): the cycle detaches from every root, the traversal never
reaches E, and E's cached world transform survives unchanged. -/
theorem claim_C3 (st : AppState) (eid : String) (pid : Option String)
    (hnd : uniqueIdsB st.instances = true) (hwf : wfB st.instances = true)
    (hrooted : rootedAllB st.instances = true) (hfresh : freshB st.instances = true)
    (hne : idsNonemptyB st.instances = true)
    {E : Instance} (hE : getInstance st.instances eid = some E)
    (hres : pid = none ∨
      ∃ ps Q, pid = some ps ∧ getInstance st.instances ps = some Q) :
    ∃ st' E', setParent st eid pid = (st', true) ∧
      getInstance st'.instances eid = some E' ∧
      E'.worldTransform = E.worldTransform := by
  rcases hres with hfN | ⟨ps, Q, hpid, hgQ⟩
  · subst hfN
    have hok : ¬ (jsTruthyId (none : Option String) = true ∧
        (if jsTruthyId (none : Option String) then
          getInstance st.instances ((none : Option String).getD "")
         else none) = none) := by
      simp [jsTruthyId]
    rw [setParent_success hE hok]
    obtain ⟨E', hw, hweq⟩ := setParent_world_none hnd hwf hrooted hne hE
    exact ⟨_, E', rfl, hw, hweq⟩
  · subst hpid
    have hQps : Q.id = ps := getInstance_id hgQ
    have hpsne0 : ps ≠ "" := by
      have hq := idsNonemptyB_spec hne Q (getInstance_mem hgQ)
      rw [hQps] at hq
      exact hq
    have ht : jsTruthyId (some ps) = true := by
      simp [jsTruthyId, hpsne0]
    have hifeq : (if jsTruthyId (some ps) then
        getInstance st.instances ((some ps).getD "") else none) = some Q := by
      rw [if_pos ht]
      simp only [Option.getD_some]
      exact hgQ
    have hok : ¬ (jsTruthyId (some ps) = true ∧
        (if jsTruthyId (some ps) then
          getInstance st.instances ((some ps).getD "") else none) = none) := by
      rw [hifeq]
      simp
    rw [setParent_success hE hok, hifeq]
    obtain ⟨E', hw, hweq⟩ := setParent_world_some hnd hwf hrooted hfresh hne hE hgQ
    exact ⟨_, E', rfl, hw, hweq⟩

/-- Witness for C3 on the concrete two-root forest: reparenting `r1` under
`r2` succeeds and leaves `r1` at world position (10, 10). -/
theorem claim_C3_witness :
    ∃ st' E', setParent stW "r1" (some "r2") = (st', true) ∧
      getInstance st'.instances "r1" = some E' ∧
      E'.worldTransform = r1W.worldTransform :=
  claim_C3 stW "r1" (some "r2") (by decide) (by decide) (by decide) (by decide)
    (by decide)
    (show getInstance stW.instances "r1" = some r1W from by decide)
    (Or.inr ⟨"r2", r2W, rfl, by decide⟩)

end IG

